import Mathlib

/-!
Verification development for the StarDict writer core of the pyglossary fork:
a shallow embedding of `pyglossary/plugins/stardict/writer.py` (the four write
strategies, the definition sanitizer `fixDefi`, the `.ifo` metadata builder)
and of the disk-backed entry list `pyglossary/sq_entry_list.py`, together with
theorems about the embedded code.

Bytes are modelled as `List Nat` (each element < 256 where produced by the
encoders); machine integers are `Nat` with explicit bounds checks; fallible
operations return `Option` or carry an explicit error value.
-/

namespace Stardict

abbrev Bytes := List Nat

/-- Big-endian fixed-width byte sequence of a natural number:
`beBytes w n` has length `w`, most significant byte first. -/
def beBytes : Nat → Nat → Bytes
  | 0, _ => []
  | w + 1, n => beBytes w (n / 256) ++ [n % 256]

/-- Modelled from the spec: `pyglossary.text_utils.uint32ToBytes` is not under
`src/`; §4.1 of the spec describes the offset codec as mapping a non-negative
integer to a fixed-width big-endian byte sequence of width 4, and §8 requires
that encoding a value beyond the width's maximum fails (`FormatOverflow`),
so the encoder returns `none` for values that do not fit in 32 bits. -/
def uint32ToBytes (n : Nat) : Option Bytes :=
  if n < 2 ^ 32 then some (beBytes 4 n) else none

/-- Modelled from the spec: `pyglossary.text_utils.uint64ToBytes` is not under
`src/`; same contract as `uint32ToBytes` with width 8 (maximum `2^64 - 1`). -/
def uint64ToBytes (n : Nat) : Option Bytes :=
  if n < 2 ^ 64 then some (beBytes 8 n) else none

/-- Byte-lexicographic order on byte strings (`b"..."` comparison in Python):
the empty string is smallest, otherwise compare head bytes, ties recurse. -/
def bytesLe : Bytes → Bytes → Bool
  | [], _ => true
  | _ :: _, [] => false
  | a :: as, b :: bs => decide (a < b) || (decide (a = b) && bytesLe as bs)

/-- `bytesLe` as a proposition, for sortedness statements. -/
def bLe (a b : Bytes) : Prop := bytesLe a b = true

instance : DecidableRel bLe := fun a b => by unfold bLe; infer_instance

theorem bytesLe_total : ∀ a b : Bytes, bytesLe a b = true ∨ bytesLe b a = true := by
  intro a
  induction a with
  | nil => intro b; left; rfl
  | cons x xs ih =>
    intro b
    cases b with
    | nil => right; rfl
    | cons y ys =>
      simp only [bytesLe, Bool.or_eq_true, Bool.and_eq_true, decide_eq_true_eq]
      rcases Nat.lt_trichotomy x y with h | h | h
      · left; left; exact h
      · rcases ih ys with h2 | h2
        · left; right; exact ⟨h, h2⟩
        · right; right; exact ⟨h.symm, h2⟩
      · right; left; exact h

theorem bytesLe_trans :
    ∀ a b c : Bytes, bytesLe a b = true → bytesLe b c = true → bytesLe a c = true := by
  intro a
  induction a with
  | nil => intro b c _ _; rfl
  | cons x xs ih =>
    intro b c hab hbc
    cases b with
    | nil => simp [bytesLe] at hab
    | cons y ys =>
      cases c with
      | nil => simp [bytesLe] at hbc
      | cons z zs =>
        simp only [bytesLe, Bool.or_eq_true, Bool.and_eq_true, decide_eq_true_eq] at *
        rcases hab with h1 | ⟨h1, h1'⟩
        · rcases hbc with h2 | ⟨h2, _⟩
          · left; exact Nat.lt_trans h1 h2
          · left; exact h2 ▸ h1
        · rcases hbc with h2 | ⟨h2, h2'⟩
          · left; exact h1 ▸ h2
          · right; exact ⟨h1.trans h2, ih ys zs h1' h2'⟩

instance : IsTotal Bytes bLe := ⟨fun a b => bytesLe_total a b⟩

instance : IsTrans Bytes bLe := ⟨fun a b c => bytesLe_trans a b c⟩

/-- Order used to sort `(key, value)` records: byte-lexicographic on keys. -/
def recLe {α : Type} (x y : Bytes × α) : Prop := bLe x.1 y.1

instance {α : Type} : DecidableRel (recLe (α := α)) := fun x y => by
  unfold recLe; infer_instance

instance {α : Type} : IsTotal (Bytes × α) recLe :=
  ⟨fun x y => bytesLe_total x.1 y.1⟩

instance {α : Type} : IsTrans (Bytes × α) recLe :=
  ⟨fun x y z => bytesLe_trans x.1 y.1 z.1⟩

/-- Modelled from the spec: `MemSdList.sort` (and the SQLite-index ordering of
`IdxSqList`/`SynSqList`) are not under `src/`; §4.3 of the spec specifies a
one-time sort ascending by key, lexicographic on the raw key bytes, with order
among equal keys left unspecified (§9); this model uses a stable sort. -/
def sortByKey {α : Type} (l : List (Bytes × α)) : List (Bytes × α) :=
  List.insertionSort recLe l

/-- Decimal digit character (`0`–`9`). -/
def digitChar : Nat → Char
  | 0 => '0' | 1 => '1' | 2 => '2' | 3 => '3' | 4 => '4'
  | 5 => '5' | 6 => '6' | 7 => '7' | 8 => '8' | _ => '9'

/-- Decimal digits of `n`, most significant first; `fuel` bounds recursion. -/
def natDigitsAux : Nat → Nat → List Char
  | 0, _ => []
  | fuel + 1, n =>
    if n < 10 then [digitChar n]
    else natDigitsAux fuel (n / 10) ++ [digitChar (n % 10)]

/-- Model of Python `str(n)` for a non-negative integer: decimal notation. -/
def natToStr (n : Nat) : String := ⟨natDigitsAux (n + 1) n⟩

/-- UTF-8 encoding of a single character (standard 1–4 byte ranges). -/
def utf8EncodeChar (c : Char) : Bytes :=
  let n := c.toNat
  if n < 128 then [n]
  else if n < 2048 then [192 + n / 64, 128 + n % 64]
  else if n < 65536 then [224 + n / 4096, 128 + n / 64 % 64, 128 + n % 64]
  else [240 + n / 262144, 128 + n / 4096 % 64, 128 + n / 64 % 64, 128 + n % 64]

/-- UTF-8 encoding of a character sequence (Python `str.encode("utf-8")`). -/
def utf8Encode : List Char → Bytes
  | [] => []
  | c :: rest => utf8EncodeChar c ++ utf8Encode rest

/-- Embedding of `re_newline.sub(rep, text)` for
`re_newline = re.compile("\n\r?|\r\n?")` (`writer.py` line 48): each newline
sequence (`\n`, `\n\r`, `\r`, `\r\n`) is replaced by `rep`, scanning left to
right with the alternation's greedy optional second character. -/
def subNewlines (rep : List Char) : List Char → List Char
  | [] => []
  | '\n' :: '\r' :: rest => rep ++ subNewlines rep rest
  | '\n' :: rest => rep ++ subNewlines rep rest
  | '\r' :: '\n' :: rest => rep ++ subNewlines rep rest
  | '\r' :: rest => rep ++ subNewlines rep rest
  | c :: rest => c :: subNewlines rep rest

/-- `newlinesToSpace` (`writer.py` lines 51–52). -/
def newlinesToSpace (s : String) : String := ⟨subNewlines [' '] s.data⟩

/-- `newlinesToBr` (`writer.py` lines 55–56). -/
def newlinesToBr (s : String) : String := ⟨subNewlines ['<', 'b', 'r', '>'] s.data⟩

/-- Python `pat in s` for strings, as substring containment on characters. -/
def containsSub (pat s : List Char) : Bool :=
  (List.range (s.length + 1)).any fun i => pat.isPrefixOf (s.drop i)

/-- Python `str.lower`, restricted to the ASCII case mapping. -/
def toLowerStr (s : String) : String := ⟨s.data.map Char.toLower⟩

/-! ## Regex substitution machinery for `Writer.fixDefi`

`re.sub` over a character list: a matcher either fails at the current
position, or returns the replacement text for the match together with the
remainder of the input after the matched region.  Scanning proceeds left to
right; on a failed match the scanner advances one character.  `fuel` bounds
the number of scan steps; every matcher consumes at least one character, so
`fuel = input length` always suffices. -/

/-- Generic left-to-right non-overlapping substitution (`re.sub` driver). -/
def reSub (m : List Char → Option (List Char × List Char)) :
    Nat → List Char → List Char
  | 0, s => s
  | _ + 1, [] => []
  | fuel + 1, c :: rest =>
    match m (c :: rest) with
    | some (rep, rest2) => rep ++ reSub m fuel rest2
    | none => c :: reSub m fuel rest

/-- Split a list at the first occurrence of `pat`: returns the part before
the occurrence and the part after it (leftmost match). -/
def splitFirstInfix (pat : List Char) : List Char → Option (List Char × List Char)
  | [] => if pat.isPrefixOf ([] : List Char) then some ([], []) else none
  | c :: rest =>
    if pat.isPrefixOf (c :: rest) then some ([], (c :: rest).drop pat.length)
    else
      match splitFirstInfix pat rest with
      | some (pre, post) => some (c :: pre, post)
      | none => none

def closePLit : List Char := ['<', '/', 'p', '>']

def brLit : List Char := ['<', 'b', 'r', '>']

/-- Find the shortest (non-greedy) body terminated by `"</p>"` (DOTALL, so the
body may contain any character); replacement is `"\2<br>"`, i.e. the body
followed by a canonical `<br>`. -/
def pBody (u : List Char) : Option (List Char × List Char) :=
  match splitFirstInfix closePLit u with
  | some (body, rest) => some (body ++ brLit, rest)
  | none => none

/-- Matcher for `self._p_pattern = re.compile("<p( [^<>]*?)?>(.*?)</p>", re.DOTALL)`
(`writer.py` lines 75–78), with replacement `"\\2<br>"`: after the literal
`<p`, either `>` follows directly (empty attribute group), or a space followed
by a run of non-`<`/`>` characters and then `>`; the body is the shortest run
of arbitrary characters up to the first `</p>`. -/
def pMatcher : List Char → Option (List Char × List Char)
  | a :: b :: rest =>
    if a = '<' ∧ b = 'p' then
      match rest with
      | c :: rest2 =>
        if c = '>' then pBody rest2
        else if c = ' ' then
          match rest2.drop (rest2.takeWhile fun ch => ch != '<' && ch != '>').length with
          | d :: rest3 => if d = '>' then pBody rest3 else none
          | [] => none
        else none
      | [] => none
    else none
  | _ => none

/-- Matcher for `defi.replace("</p>", "<br>")` (`writer.py` line 160):
a literal occurrence of `</p>` is replaced by `<br>`. -/
def closePMatcher (t : List Char) : Option (List Char × List Char) :=
  if closePLit.isPrefixOf t then some (brLit, t.drop 4) else none

/-- Matcher for `self._br_pattern = re.compile("<br[ /]*>", re.IGNORECASE)`
(`writer.py` lines 79–82), with replacement `"<br>"`: `<`, then `b`/`B`,
`r`/`R`, a run of spaces and slashes, then `>`. -/
def brMatcher : List Char → Option (List Char × List Char)
  | a :: b :: r :: rest =>
    if a = '<' ∧ (b = 'b' ∨ b = 'B') ∧ (r = 'r' ∨ r = 'R') then
      match rest.drop (rest.takeWhile fun c => c == ' ' || c == '/').length with
      | d :: rest2 => if d = '>' then some (brLit, rest2) else none
      | [] => none
    else none
  | _ => none

def hrefSoundLit : List Char := "href=\"sound://".data

/-- The region between `<a ` and `href="sound://` must be matchable as
`(type="sound" )?([^<>]*? )?`: either empty, or a run of non-`<`/`>`
characters ending in a space (the optional literal `type="sound" ` is itself
such a run, so this condition is exactly the concatenation of the two
optional groups). -/
def betweenOk (b : List Char) : Bool :=
  b.isEmpty || (b.all (fun c => c != '<' && c != '>') && b.getLast? == some ' ')

/-- All splits `t = between ++ hrefSoundLit ++ after` with `betweenOk between`,
in increasing position order (the backtracking order of the two optional
groups explores exactly these splits, earliest `href="sound://` first). -/
def hrefSplitsAux (acc : List Char) : List Char → List (List Char × List Char)
  | [] => []
  | c :: rest =>
    (if betweenOk acc && hrefSoundLit.isPrefixOf (c :: rest) then
      [(acc, (c :: rest).drop hrefSoundLit.length)]
    else []) ++ hrefSplitsAux (acc ++ [c]) rest

def hrefSplits (t : List Char) : List (List Char × List Char) :=
  hrefSplitsAux [] t

def closeALit : List Char := ['<', '/', 'a', '>']

/-- Shortest link body (group 5, `(.*?)</a>` without DOTALL): the body may not
contain a newline and ends at the first `</a>`. -/
def bodySearch : List Char → Option (List Char × List Char)
  | [] => none
  | c :: rest =>
    if closeALit.isPrefixOf (c :: rest) then some ([], (c :: rest).drop 4)
    else if c == '\n' then none
    else
      match bodySearch rest with
      | some (body, rem) => some (c :: body, rem)
      | none => none

/-- Candidate body starts for `( .*?)?>`: for a non-empty group 4 the lazy
`.*?` stops at each `>` in turn (newline stops the scan, `.` does not match
it); each candidate is the suffix following that `>`. -/
def gtCandidates : List Char → List (List Char)
  | [] => []
  | '>' :: rest => rest :: gtCandidates rest
  | '\n' :: _ => []
  | _ :: rest => gtCandidates rest

/-- After the closing quote of `sound://...`: `( .*?)?>(.*?)</a>`.  A space
starts the optional group 4 (candidates tried shortest-first); otherwise `>`
must follow directly.  Returns (group 5, remainder after `</a>`). -/
def audioAfterQuote : List Char → Option (List Char × List Char)
  | ' ' :: rest => List.findSome? bodySearch (gtCandidates rest)
  | '>' :: rest => bodySearch rest
  | _ => none

/-- `([^<>"]+)"` then the tail of the pattern: greedy run of non-`<`/`>`/`"`
characters (at least one), a closing quote, then `audioAfterQuote`.
Returns (group 3, group 5, remainder). -/
def audioTailMatch (afterHref : List Char) :
    Option (List Char × List Char × List Char) :=
  let g3 := afterHref.takeWhile fun c => c != '<' && c != '>' && c != '"'
  if g3.isEmpty then none
  else
    match afterHref.drop g3.length with
    | '"' :: u =>
      match audioAfterQuote u with
      | some (g5, rem) => some (g3, g5, rem)
      | none => none
    | _ => none

/-- Replacement `'<audio src="\3">\5</audio>'` (with the audio-icon flag) or
`'<audio src="\3"></audio>'` (without), `writer.py` lines 163–173. -/
def audioRep (audioIcon : Bool) (g3 g5 : List Char) : List Char :=
  "<audio src=\"".data ++ g3 ++ ['"', '>'] ++
    (if audioIcon then g5 else []) ++ "</audio>".data

/-- Matcher for `self._re_audio_link = re.compile('<a (type="sound" )?([^<>]*? )?href="sound://([^<>"]+)"( .*?)?>(.*?)</a>')`
(`writer.py` lines 83–85): literal `<a `, the two optional groups up to
`href="sound://`, then the tail of the pattern; candidate `href` positions
are tried leftmost-first, retrying on tail failure as the lazy groups do. -/
def audioMatcher (audioIcon : Bool) : List Char → Option (List Char × List Char)
  | a :: b :: c :: rest =>
    if a = '<' ∧ b = 'a' ∧ c = ' ' then
      List.findSome?
        (fun spl =>
          match audioTailMatch spl.2 with
          | some (g3, g5, rem) => some (audioRep audioIcon g3 g5, rem)
          | none => none)
        (hrefSplits rest)
    else none
  | _ => none

def pSubAll (s : List Char) : List Char := reSub pMatcher s.length s

def closePSubAll (s : List Char) : List Char := reSub closePMatcher s.length s

def brSubAll (s : List Char) : List Char := reSub brMatcher s.length s

def audioSubAll (audioIcon : Bool) (s : List Char) : List Char :=
  reSub (audioMatcher audioIcon) s.length s

/-- Configuration surface of the Writer used by the embedded code paths
(`writer.py` lines 60–67).  `sametypesequence = ""` selects the general
(per-block format) strategies; `dictzip` and `sqlite` only select external
post-processing and the list backing store and do not change the produced
records, so they are not fields of the model. -/
structure SdConfig where
  large_file : Bool
  sametypesequence : String
  stardict_client : Bool
  merge_syns : Bool
  audio_goldendict : Bool
  audio_icon : Bool

/-- `Writer.fixDefi` (`writer.py` lines 155–177): StarDict-3.0 HTML rewriting
(only when `stardict_client` is set and the definition format is `h`), then
GoldenDict audio-link rewriting (only when `audio_goldendict` is set),
before encoding to UTF-8. -/
def fixDefi (cfg : SdConfig) (defiFormat : String) (defi : List Char) : List Char :=
  let d1 :=
    if cfg.stardict_client && defiFormat == "h" then
      brSubAll (closePSubAll (pSubAll defi))
    else defi
  if cfg.audio_goldendict then audioSubAll cfg.audio_icon d1 else d1

/-- The bytes returned by `Writer.fixDefi`: `defi.encode("utf-8")` of the
rewritten text. -/
def fixDefiBytes (cfg : SdConfig) (defiFormat : String) (defi : List Char) : Bytes :=
  utf8Encode (fixDefi cfg defiFormat defi)

/-! ## The write session -/

/-- An entry as consumed by the Writer: `words` is `entry.lb_word` (the
word-forms already encoded to bytes by the glossary model, headword first),
`defi` the definition text, `defiFormat` the per-entry format tag returned by
`entry.detectDefiFormat("m")` in the general strategies, `isData` the resource
flag, and `dataName` the file name a resource entry is saved under. -/
structure Entry where
  words : List Bytes
  defi : List Char
  defiFormat : String
  isData : Bool
  dataName : String

/-- Glossary-level metadata consumed by `Writer.writeIfoFile`
(`glos.getInfo(...)` and the source/target languages). -/
structure Glos where
  name : String
  description : String
  copyright : String
  publisher : String
  author : String
  email : String
  website : String
  date : String
  sourceLang : Option String
  targetLang : Option String

/-- Failure modes of a write session.  `overflow` is the explicit
`raise Error(f"StarDict: dictMark = ... is too big, set option large_file=true")`
check; `encodeOverflow` is the offset codec refusing a value beyond its width
(spec §4.1/§8 `FormatOverflow`); `indexError` is `b_words[0]` on an entry
with no word-forms; `ioNotFound` is `getsize` on a file that was never
created. -/
inductive SdError
  | overflow (msg : String)
  | encodeOverflow
  | indexError
  | ioNotFound (path : String)
deriving DecidableEq

/-- The overflow message raised by all four write strategies
(`writer.py` lines 242–245, 305–308, 387–390, 442–445). -/
def overflowMsg (m : Nat) : String :=
  ("StarDict: dictMark = " ++ natToStr m ++ " is too big, ") ++
    "set option large_file=true"

/-- `Writer.dictMarkToBytesFunc` (`writer.py` lines 189–193): the offset
encoder selected by `large_file`. -/
def dictMarkToBytes (cfg : SdConfig) (n : Nat) : Option Bytes :=
  if cfg.large_file then uint64ToBytes n else uint32ToBytes n

/-- `Writer.dictMarkToBytesFunc`'s maximum: `0xFFFFFFFFFFFFFFFF` when
`large_file` is set, `0xFFFFFFFF` otherwise. -/
def dictMarkMax (cfg : SdConfig) : Nat :=
  if cfg.large_file then 2 ^ 64 - 1 else 2 ^ 32 - 1

/-- The dict block emitted for one textual entry: in the compact strategies
(`sametypesequence ≠ ""`) the sanitized definition bytes alone; in the
general strategies the per-entry format tag byte, the sanitized definition,
and a terminating null (`writer.py` lines 229, 291–292, 378, 432–433). -/
def blockBytes (cfg : SdConfig) (e : Entry) : Bytes :=
  if cfg.sametypesequence = "" then
    utf8Encode e.defiFormat.data ++ fixDefiBytes cfg e.defiFormat e.defi ++ [0]
  else
    fixDefiBytes cfg cfg.sametypesequence e.defi

/-- Mutable state threaded through the per-entry loop of the four write
strategies: the `.dict` bytes written so far, the index records written
(split strategies: one per textual entry, in stream order, flushed to the
`.idx` file as they are produced) or accumulated (merged strategies: one per
word-form, sorted and flushed at the end), the synonym list, the saved
resource names, the running offset `dictMark`, and `wordCount` (which also
plays the role of `entryIndex + 1`). -/
structure RunState where
  dict : Bytes
  idxRecords : List (Bytes × Bytes)
  altList : List (Bytes × Nat)
  resNames : List String
  dictMark : Nat
  wordCount : Nat

def initState : RunState := ⟨[], [], [], [], 0, 0⟩

/-- The per-entry loop shared by `writeCompact`, `writeGeneral`,
`writeCompactMergeSyns` and `writeGeneralMergeSyns` (`writer.py` lines
214–245, 274–308, 368–390, 420–445).  The strategies differ only in the
block layout (`blockBytes`) and in where records go: split strategies write
one `.idx` record per textual entry and queue alternates as `.syn` records
with the entry's index among textual entries; merged strategies queue one
`.idx` record per word-form, all sharing the entry's offset/length pair.
After each block, the new `dictMark` is checked against the width maximum. -/
def writeLoop (cfg : SdConfig) : RunState → List Entry → RunState × Option SdError
  | st, [] => (st, none)
  | st, e :: rest =>
    if e.isData then
      writeLoop cfg { st with resNames := st.resNames ++ [e.dataName] } rest
    else
      let b_dictBlock := blockBytes cfg e
      let dict' := st.dict ++ b_dictBlock
      if cfg.merge_syns then
        match dictMarkToBytes cfg st.dictMark, uint32ToBytes b_dictBlock.length with
        | some offB, some lenB =>
          let st' : RunState :=
            { st with
              dict := dict'
              idxRecords := st.idxRecords ++ e.words.map fun w => (w, offB ++ lenB)
              dictMark := st.dictMark + b_dictBlock.length }
          if dictMarkMax cfg < st'.dictMark then
            (st', some (SdError.overflow (overflowMsg st'.dictMark)))
          else writeLoop cfg st' rest
        | _, _ => ({ st with dict := dict' }, some SdError.encodeOverflow)
      else
        let alts := (e.words.drop 1).map fun w => (w, st.wordCount)
        match e.words with
        | [] =>
          ({ st with dict := dict', altList := st.altList ++ alts },
            some SdError.indexError)
        | w0 :: _ =>
          match dictMarkToBytes cfg st.dictMark, uint32ToBytes b_dictBlock.length with
          | some offB, some lenB =>
            let st' : RunState :=
              { st with
                dict := dict'
                idxRecords := st.idxRecords ++ [(w0, offB ++ lenB)]
                altList := st.altList ++ alts
                dictMark := st.dictMark + b_dictBlock.length
                wordCount := st.wordCount + 1 }
            if dictMarkMax cfg < st'.dictMark then
              (st', some (SdError.overflow (overflowMsg st'.dictMark)))
            else writeLoop cfg st' rest
          | _, _ =>
            ({ st with dict := dict', altList := st.altList ++ alts },
              some SdError.encodeOverflow)

/-- Serialization of `.idx` records: `word ++ b"\x00" ++ value` per record
(`writer.py` lines 232–237, 472–474). -/
def renderIdx (recs : List (Bytes × Bytes)) : Bytes :=
  recs.flatMap fun kv => kv.1 ++ [0] ++ kv.2

/-- Serialization of the sorted `.syn` records: `word ++ b"\x00" ++ uint32(index)`
(`writer.py` lines 339–341); `none` if an entry index does not fit 32 bits. -/
def synRecordsBytes : List (Bytes × Nat) → Option Bytes
  | [] => some []
  | (w, i) :: rest =>
    match uint32ToBytes i, synRecordsBytes rest with
    | some ib, some rb => some (w ++ [0] ++ ib ++ rb)
    | _, _ => none

def sigLine : List Char := "StarDict's dict ifo file\n".data

/-- The bookname computation of `Writer.writeIfoFile` (`writer.py` lines
488–497): newlines collapsed to spaces, and the `(src-tgt)` language pair
appended when both languages are known and the pair does not already occur
(case-insensitively) in the name. -/
def booknameOf (glos : Glos) : String :=
  let b := newlinesToSpace glos.name
  match glos.sourceLang, glos.targetLang with
  | some s, some t =>
    let langs := s ++ "-" ++ t
    if containsSub langs.data (toLowerStr b).data then b
    else b ++ " (" ++ langs ++ ")"
  | _, _ => b

/-- The description composition of `Writer.writeIfoFile` (`writer.py` lines
512–518): the raw copyright (if set) and then a `Publisher: ...` line (if
set) are prepended to the glossary description, each on its own line. -/
def composedDesc (glos : Glos) : String :=
  let d1 :=
    if glos.copyright ≠ "" then glos.copyright ++ "\n" ++ glos.description
    else glos.description
  if glos.publisher ≠ "" then "Publisher: " ++ glos.publisher ++ "\n" ++ d1
  else d1

/-- One optional info field of the `infoKeys` loop (`writer.py` lines
520–530): skipped when empty, newlines collapsed to spaces otherwise. -/
def optField (key value : String) : List (String × String) :=
  if value = "" then [] else [(key, newlinesToSpace value)]

/-- `Writer.writeIfoFile` (`writer.py` lines 480–543) as the ordered
key/value list it writes: the mandatory `version`, `bookname`, `wordcount`,
`idxfilesize` fields; `idxoffsetbits=64` only under `large_file`;
`sametypesequence` only when a uniform format tag was used; `synwordcount`
only when positive; then the non-empty optional info fields and finally the
composed description with newlines rendered as `<br>`. -/
def writeIfoFile (cfg : SdConfig) (glos : Glos) (wordCount synWordCount : Nat)
    (defiFormat : String) (idxFileSize : Nat) : List (String × String) :=
  [("version", "3.0.0"),
    ("bookname", booknameOf glos),
    ("wordcount", natToStr wordCount),
    ("idxfilesize", natToStr idxFileSize)] ++
  (if cfg.large_file then [("idxoffsetbits", "64")] else []) ++
  (if defiFormat ≠ "" then [("sametypesequence", defiFormat)] else []) ++
  (if 0 < synWordCount then [("synwordcount", natToStr synWordCount)] else []) ++
  optField "author" glos.author ++
  optField "email" glos.email ++
  optField "website" glos.website ++
  optField "date" glos.date ++
  [("description", newlinesToBr (composedDesc glos))]

/-- The text written to the `.ifo` file: the signature line followed by one
`key=value` line per field, every line terminated by a bare line feed
(`writer.py` lines 534–543, `newline="\n"`). -/
def renderIfo (ifo : List (String × String)) : List Char :=
  sigLine ++ ifo.flatMap fun kv => kv.1.data ++ ['='] ++ kv.2.data ++ ['\n']

/-- Observable outcome of one write session (`Writer.write`,
`writer.py` lines 130–153, driving one of the four strategies to the end).
`idxFile`/`synFile`/`ifo` are `none` when the corresponding file was never
created; `idxRecords` are the records of the produced `.idx` file in file
order; `resDirExists` reflects that the `res` directory is created upfront
and removed at the end only when the session succeeded with no resources
saved (an aborted session leaves it behind). -/
structure SessionResult where
  dict : Bytes
  idxFile : Option Bytes
  synFile : Option Bytes
  ifo : Option (List (String × String))
  idxRecords : List (Bytes × Bytes)
  altPairs : List (Bytes × Nat)
  resNames : List String
  resDirExists : Bool
  err : Option SdError

/-- One full write session: run the per-entry loop, then flush.  Split
strategies: the `.idx` file already holds the records in stream order;
`writeSynFile` sorts and writes the `.syn` file only when alternates exist
(`writer.py` lines 321–344); `writeIfoFile` reads the `.idx` size.  Merged
strategies: `writeIdxFile` (`writer.py` lines 458–478) returns 0 without
creating the `.idx` file when no records exist — the subsequent
`getsize(... ".idx")` then fails — and otherwise sorts the records, writes
them, and returns their count as the word count. -/
def runSession (cfg : SdConfig) (glos : Glos) (entries : List Entry) : SessionResult :=
  let p := writeLoop cfg initState entries
  let st := p.1
  match p.2 with
  | some e =>
    { dict := st.dict
      idxFile := if cfg.merge_syns then none else some (renderIdx st.idxRecords)
      synFile := none
      ifo := none
      idxRecords := if cfg.merge_syns then [] else st.idxRecords
      altPairs := st.altList
      resNames := st.resNames
      resDirExists := true
      err := some e }
  | none =>
    if cfg.merge_syns then
      if st.idxRecords = [] then
        { dict := st.dict, idxFile := none, synFile := none, ifo := none
          idxRecords := [], altPairs := st.altList, resNames := st.resNames
          resDirExists := true, err := some (SdError.ioNotFound ".idx") }
      else
        let recs := sortByKey st.idxRecords
        let idxB := renderIdx recs
        { dict := st.dict
          idxFile := some idxB
          synFile := none
          ifo := some (writeIfoFile cfg glos recs.length st.altList.length
            cfg.sametypesequence idxB.length)
          idxRecords := recs
          altPairs := st.altList
          resNames := st.resNames
          resDirExists := decide (st.resNames ≠ [])
          err := none }
    else
      let idxB := renderIdx st.idxRecords
      if st.altList = [] then
        { dict := st.dict
          idxFile := some idxB
          synFile := none
          ifo := some (writeIfoFile cfg glos st.wordCount st.altList.length
            cfg.sametypesequence idxB.length)
          idxRecords := st.idxRecords
          altPairs := st.altList
          resNames := st.resNames
          resDirExists := decide (st.resNames ≠ [])
          err := none }
      else
        match synRecordsBytes (sortByKey st.altList) with
        | some synB =>
          { dict := st.dict
            idxFile := some idxB
            synFile := some synB
            ifo := some (writeIfoFile cfg glos st.wordCount st.altList.length
              cfg.sametypesequence idxB.length)
            idxRecords := st.idxRecords
            altPairs := st.altList
            resNames := st.resNames
            resDirExists := decide (st.resNames ≠ [])
            err := none }
        | none =>
          { dict := st.dict
            idxFile := some idxB
            synFile := none
            ifo := none
            idxRecords := st.idxRecords
            altPairs := st.altList
            resNames := st.resNames
            resDirExists := true
            err := some SdError.encodeOverflow }

/-! ## The disk-backed entry list (`pyglossary/sq_entry_list.py`) -/

/-- Failure modes of `SqEntryList` operations: `invalidState` is the
`NotImplementedError("can not sort more than once")` of a second `sort`;
`noSortKey` the failure on a missing sort key (`TypeError`/`RuntimeError`);
`closedCursor` an operation on a closed connection (`AttributeError`);
`setTwice` the `RuntimeError("Called setSortKey twice")`. -/
inductive SqError
  | invalidState
  | noSortKey
  | closedCursor
  | setTwice

/-- State of one `SqEntryList` instance (`sq_entry_list.py` lines 56–90):
rows hold the computed sort-key column values together with the stored entry;
`sorted` records whether the one-time `sort` already ran; multi-column sort
keys are a list of key functions over the entry. -/
structure SqEntryList (α : Type) where
  rows : List (List Bytes × α)
  len : Nat
  sorted : Bool
  reverse : Bool
  sortKeyCols : Option (List (α → Bytes))
  isOpen : Bool

/-- A freshly created list (`SqEntryList.__init__`, `create=True`). -/
def SqEntryList.mkNew (α : Type) : SqEntryList α :=
  { rows := [], len := 0, sorted := false, reverse := false
    sortKeyCols := none, isOpen := true }

/-- `SqEntryList.setSortKey` (`sq_entry_list.py` lines 92–126): fails on a
closed connection or when called twice, otherwise installs the key columns. -/
def SqEntryList.setSortKey {α : Type} (l : SqEntryList α)
    (cols : List (α → Bytes)) : Except SqError (SqEntryList α) :=
  if ¬ l.isOpen then .error .closedCursor
  else
    match l.sortKeyCols with
    | some _ => .error .setTwice
    | none => .ok { l with sortKeyCols := some cols }

/-- `SqEntryList.append` (`sq_entry_list.py` lines 138–145): evaluates the
cursor (closed → `AttributeError`) and the sort-key columns (unset →
`TypeError`), then inserts the row and increments the length.  There is no
check of the `sorted` flag. -/
def SqEntryList.append {α : Type} (l : SqEntryList α) (e : α) :
    Except SqError (SqEntryList α) :=
  if ¬ l.isOpen then .error .closedCursor
  else
    match l.sortKeyCols with
    | none => .error .noSortKey
    | some ks =>
      .ok { l with rows := l.rows ++ [(ks.map (fun f => f e), e)], len := l.len + 1 }

/-- `SqEntryList.sort` (`sq_entry_list.py` lines 152–168): a second call
fails (`NotImplementedError`), a missing sort key fails (`RuntimeError`),
a closed connection fails; otherwise the sort index is materialized and the
instance is marked sorted (with the requested direction). -/
def SqEntryList.sort {α : Type} (l : SqEntryList α) (reverse : Bool) :
    Except SqError (SqEntryList α) :=
  if l.sorted then .error .invalidState
  else
    match l.sortKeyCols with
    | none => .error .noSortKey
    | some _ =>
      if ¬ l.isOpen then .error .closedCursor
      else .ok { l with sorted := true, reverse := reverse }

/-! ## Derived notions used by the theorems -/

/-- The headword bytes of an entry (`entry.lb_word[0]`). -/
def headwordOf (e : Entry) : Bytes := e.words.headD []

/-- The dict-block lengths of the textual entries of a stream, in order. -/
def blockLens (cfg : SdConfig) (entries : List Entry) : List Nat :=
  (entries.filter fun e => !e.isData).map fun e => (blockBytes cfg e).length

/-- The synonym records a split-strategy session constructs, with the
entry index counting textual entries only, starting from `k`. -/
def synPairsFrom (k : Nat) : List Entry → List (Bytes × Nat)
  | [] => []
  | e :: rest =>
    if e.isData then synPairsFrom k rest
    else ((e.words.drop 1).map fun w => (w, k)) ++ synPairsFrom (k + 1) rest

/-- Every position where the `<br[ /]*>` pattern matches holds the canonical
spelling `<br>` (so the match replaces it by itself). -/
def brCanonical (s : List Char) : Bool :=
  (List.range (s.length + 1)).all fun i =>
    match brMatcher (s.drop i) with
    | some (rep, r2) => rep ++ r2 == s.drop i
    | none => true

/-! ## Helper lemmas -/

theorem beBytes_length (w : Nat) : ∀ n, (beBytes w n).length = w := by
  induction w with
  | zero => intro n; rfl
  | succ w ih => intro n; simp [beBytes, ih]

theorem digitChar_ne_cr (d : Nat) : digitChar d ≠ '\r' := by
  rcases d with _ | _ | _ | _ | _ | _ | _ | _ | _ | d <;> simp [digitChar]

theorem natDigitsAux_no_cr (fuel : Nat) : ∀ n, '\r' ∉ natDigitsAux fuel n := by
  induction fuel with
  | zero => intro n h; simp [natDigitsAux] at h
  | succ f ih =>
    intro n h
    simp only [natDigitsAux] at h
    split at h
    · simp at h; exact digitChar_ne_cr n h.symm
    · rw [List.mem_append] at h
      rcases h with h | h
      · exact ih _ h
      · simp at h; exact digitChar_ne_cr _ h.symm

theorem natToStr_no_cr (n : Nat) : '\r' ∉ (natToStr n).data :=
  natDigitsAux_no_cr _ n

theorem subNewlines_no_cr (rep : List Char) (hr : '\r' ∉ rep) (hn : '\n' ∉ rep) :
    ∀ s : List Char, '\r' ∉ subNewlines rep s ∧ '\n' ∉ subNewlines rep s := by
  intro s
  induction s using subNewlines.induct rep <;>
    simp_all [subNewlines, ne_comm]

theorem newlinesToSpace_no_cr (s : String) :
    '\r' ∉ (newlinesToSpace s).data ∧ '\n' ∉ (newlinesToSpace s).data :=
  subNewlines_no_cr [' '] (by decide) (by decide) s.data

theorem newlinesToBr_no_cr (s : String) :
    '\r' ∉ (newlinesToBr s).data ∧ '\n' ∉ (newlinesToBr s).data :=
  subNewlines_no_cr ['<', 'b', 'r', '>'] (by decide) (by decide) s.data

theorem utf8Encode_append (l₁ l₂ : List Char) :
    utf8Encode (l₁ ++ l₂) = utf8Encode l₁ ++ utf8Encode l₂ := by
  induction l₁ with
  | nil => rfl
  | cons c rest ih => simp [utf8Encode, ih]

theorem utf8Encode_replicate_a (n : Nat) :
    (utf8Encode (List.replicate n 'a')).length = n := by
  induction n with
  | zero => rfl
  | succ k ih =>
    simp [List.replicate_succ, utf8Encode, ih,
      show utf8EncodeChar 'a' = [97] by decide]

/-- If at every suffix of `s` the matcher either fails or matches a region
equal to its own replacement (strictly shrinking the remainder), then the
substitution leaves `s` unchanged. -/
theorem reSub_id (m : List Char → Option (List Char × List Char)) :
    ∀ (fuel : Nat) (s : List Char), s.length ≤ fuel →
      (∀ t, t <:+ s → ∀ rep r2, m t = some (rep, r2) →
        t = rep ++ r2 ∧ r2.length < t.length) →
      reSub m fuel s = s := by
  intro fuel
  induction fuel with
  | zero => intro s _ _; rfl
  | succ f ih =>
    intro s hlen hm
    match s with
    | [] => rfl
    | c :: rest =>
      rw [reSub]
      cases hmc : m (c :: rest) with
      | none =>
        have hre : reSub m f rest = rest := by
          refine ih rest ?_ ?_
          · simp at hlen; omega
          · intro t ht rep r2 h
            exact hm t (ht.trans (List.suffix_cons c rest)) rep r2 h
        rw [hre]
      | some pr =>
        obtain ⟨rep, r2⟩ := pr
        obtain ⟨heq, hlt⟩ := hm (c :: rest) (List.suffix_refl _) rep r2 hmc
        have hsuf : r2 <:+ c :: rest := ⟨rep, heq.symm⟩
        have hre : reSub m f r2 = r2 := by
          refine ih r2 ?_ ?_
          · simp at hlen; simp at hlt; omega
          · intro t ht rep' r2' h
            exact hm t (ht.trans hsuf) rep' r2' h
        show rep ++ reSub m f r2 = c :: rest
        rw [hre]
        exact heq.symm

theorem pMatcher_eq_some {t rep r2 : List Char}
    (h : pMatcher t = some (rep, r2)) : ['<', 'p'] <+: t := by
  match t with
  | [] => simp [pMatcher] at h
  | [a] => simp [pMatcher] at h
  | a :: b :: rest =>
    by_cases hab : a = '<' ∧ b = 'p'
    · exact ⟨rest, by rw [hab.1, hab.2]; rfl⟩
    · simp [pMatcher, hab] at h

theorem closePMatcher_eq_some {t rep r2 : List Char}
    (h : closePMatcher t = some (rep, r2)) : closePLit <+: t := by
  unfold closePMatcher at h
  split at h
  · exact List.isPrefixOf_iff_prefix.mp (by assumption)
  · cases h

theorem brMatcher_shrinks {t rep r2 : List Char}
    (h : brMatcher t = some (rep, r2)) : r2.length < t.length := by
  match t with
  | [] => simp [brMatcher] at h
  | [a] => simp [brMatcher] at h
  | [a, b] => simp [brMatcher] at h
  | a :: b :: r :: rest =>
    simp only [brMatcher] at h
    split at h
    · rename_i hcond
      rcases hd : rest.drop (rest.takeWhile fun c => c == ' ' || c == '/').length with
        _ | ⟨d, rest2⟩
      · rw [hd] at h; exact absurd h (by simp)
      · rw [hd] at h
        split at h
        · rename_i d2 rest3 heq2
          injection heq2 with hd2 hr3
          split at h
          · have h2 : r2 = rest3 := by
              injection h with h
              injection h with _ h
              exact h.symm
            have h3 := congrArg List.length hd
            simp [List.length_drop] at h3
            subst hr3
            simp [h2]
            omega
          · exact absurd h (by simp)
        · exact absurd h (by simp)
    · exact absurd h (by simp)

theorem hrefSplitsAux_spec :
    ∀ (t acc b a : List Char), (b, a) ∈ hrefSplitsAux acc t →
      acc ++ t = b ++ (hrefSoundLit ++ a) := by
  intro t
  induction t with
  | nil => intro acc b a h; simp [hrefSplitsAux] at h
  | cons c rest ih =>
    intro acc b a h
    simp only [hrefSplitsAux] at h
    rw [List.mem_append] at h
    rcases h with h | h
    · split at h
      · rename_i hc
        simp at h
        obtain ⟨hb, ha⟩ := h
        have hpre : hrefSoundLit <+: c :: rest := by
          simp at hc
          exact hc.2
        obtain ⟨tail, htail⟩ := hpre
        subst hb
        rw [ha, ← htail, List.drop_left]
      · simp at h
    · have h2 := ih (acc ++ [c]) b a h
      simpa [List.append_assoc] using h2

theorem audioMatcher_eq_some {icon : Bool} {t rep r2 : List Char}
    (h : audioMatcher icon t = some (rep, r2)) : "sound://".data <:+: t := by
  match t with
  | [] => simp [audioMatcher] at h
  | [a] => simp [audioMatcher] at h
  | [a, b] => simp [audioMatcher] at h
  | a :: b :: c :: rest =>
    simp only [audioMatcher] at h
    split at h
    · obtain ⟨spl, hmem, _⟩ := List.exists_of_findSome?_eq_some h
      have hsp := hrefSplitsAux_spec rest [] spl.1 spl.2 hmem
      simp only [List.nil_append] at hsp
      refine ⟨a :: b :: c :: (spl.1 ++ "href=\"".data), spl.2, ?_⟩
      rw [hsp]
      simp [List.append_assoc]
      rfl
    · cases h

theorem brCanonical_spec {s : List Char} (hc : brCanonical s = true) :
    ∀ t, t <:+ s → ∀ rep r2, brMatcher t = some (rep, r2) → t = rep ++ r2 := by
  intro t ht rep r2 hm
  obtain ⟨u, hu⟩ := ht
  have hdrop : s.drop u.length = t := by rw [← hu, List.drop_left]
  have hi : u.length < s.length + 1 := by
    have := congrArg List.length hu
    simp at this
    omega
  unfold brCanonical at hc
  rw [List.all_eq_true] at hc
  have h2 := hc u.length (List.mem_range.mpr hi)
  rw [hdrop, hm] at h2
  simp at h2
  exact h2.symm

theorem containsSub_eq_false {pat s : List Char} (h : containsSub pat s = false) :
    ¬ pat <:+: s := by
  intro hinf
  obtain ⟨u, v, huv⟩ := hinf
  have htrue : containsSub pat s = true := by
    unfold containsSub
    rw [List.any_eq_true]
    refine ⟨u.length, List.mem_range.mpr ?_, ?_⟩
    · have := congrArg List.length huv
      simp at this
      omega
    · rw [List.isPrefixOf_iff_prefix]
      refine ⟨v, ?_⟩
      rw [← huv, List.append_assoc, List.drop_left]
  rw [h] at htrue
  cases htrue

theorem prefixThenSuffix_sub {pat t s : List Char} (h1 : pat <+: t) (h2 : t <:+ s) :
    pat <:+: s := by
  obtain ⟨v, hv⟩ := h1
  obtain ⟨u, hu⟩ := h2
  exact ⟨u, v, by rw [List.append_assoc, hv, hu]⟩

/-! ## Write-loop lemmas -/

/-- A stream of resource entries only saves resources: no dict bytes, no
records, no error, and the `dictMark`/`wordCount` counters untouched. -/
theorem writeLoop_all_data (cfg : SdConfig) :
    ∀ (entries : List Entry) (st : RunState), (∀ e ∈ entries, e.isData = true) →
      writeLoop cfg st entries =
        ({ st with resNames := st.resNames ++ entries.map fun e => e.dataName }, none) := by
  intro entries
  induction entries with
  | nil => intro st _; simp [writeLoop]
  | cons e rest ih =>
    intro st hall
    have hd : e.isData = true := hall e (by simp)
    rw [writeLoop]
    simp only [hd, if_true]
    rw [ih _ fun x hx => hall x (by simp [hx])]
    simp [List.append_assoc]

theorem dictMarkToBytes_of_le (cfg : SdConfig) {n : Nat} (h : n ≤ dictMarkMax cfg) :
    dictMarkToBytes cfg n = some (beBytes (if cfg.large_file then 8 else 4) n) := by
  by_cases hl : cfg.large_file <;>
    simp_all [dictMarkToBytes, dictMarkMax, uint64ToBytes, uint32ToBytes] <;>
    omega

/-- Split strategies: on a successful run, the synonym list is exactly the
alternates of the textual entries, indexed by position among textual
entries. -/
theorem writeLoop_split_altList (cfg : SdConfig) (hm : cfg.merge_syns = false) :
    ∀ (entries : List Entry) (st : RunState),
      (writeLoop cfg st entries).2 = none →
      (writeLoop cfg st entries).1.altList =
        st.altList ++ synPairsFrom st.wordCount entries := by
  intro entries
  induction entries with
  | nil => intro st _; simp [writeLoop, synPairsFrom]
  | cons e rest ih =>
    intro st hok
    by_cases hd : e.isData
    · rw [writeLoop] at hok ⊢
      simp only [hd, if_true] at hok ⊢
      rw [ih _ hok]
      simp [synPairsFrom, hd]
    · rw [writeLoop] at hok ⊢
      simp only [hd, Bool.false_eq_true, if_false, hm] at hok ⊢
      rcases hw : e.words with _ | ⟨w0, ws⟩ <;> rw [hw] at hok
      · simp at hok
      · rcases ho : dictMarkToBytes cfg st.dictMark with _ | offB <;> rw [ho] at hok
        · simp at hok
        · rcases hLB : uint32ToBytes (blockBytes cfg e).length with _ | lenB <;>
            rw [hLB] at hok
          · simp at hok
          · by_cases hov : dictMarkMax cfg < st.dictMark + (blockBytes cfg e).length
            · simp only [if_pos hov] at hok
              simp at hok
            · simp only [if_neg hov] at hok ⊢
              rw [ih _ hok]
              simp [synPairsFrom, hd, hw, List.append_assoc]

theorem cons_prefix_cons {α : Type} (a : α) {l₁ l₂ : List α} (h : l₁ <+: l₂) :
    a :: l₁ <+: a :: l₂ := by
  obtain ⟨t, ht⟩ := h
  exact ⟨t, by rw [List.cons_append, ht]⟩

/-- Split strategies: the `.idx` records written (even by an aborted run)
are the headwords of a prefix of the textual entries, in stream order. -/
theorem writeLoop_split_idx (cfg : SdConfig) (hm : cfg.merge_syns = false) :
    ∀ (entries : List Entry) (st : RunState),
      ∃ pfx, pfx <+: (entries.filter fun e => !e.isData) ∧
        (writeLoop cfg st entries).1.idxRecords.map Prod.fst =
          st.idxRecords.map Prod.fst ++ pfx.map headwordOf := by
  intro entries
  induction entries with
  | nil => intro st; exact ⟨[], by simp, by simp [writeLoop]⟩
  | cons e rest ih =>
    intro st
    by_cases hd : e.isData
    · obtain ⟨pfx, hp, he⟩ := ih { st with resNames := st.resNames ++ [e.dataName] }
      refine ⟨pfx, by simpa [hd] using hp, ?_⟩
      rw [writeLoop]
      simp only [hd, if_true]
      exact he
    · rw [writeLoop]
      simp only [hd, Bool.false_eq_true, if_false, hm]
      rcases hw : e.words with _ | ⟨w0, ws⟩
      · exact ⟨[], by simp, by simp⟩
      · rcases ho : dictMarkToBytes cfg st.dictMark with _ | offB
        · exact ⟨[], by simp, by simp⟩
        · rcases hLB : uint32ToBytes (blockBytes cfg e).length with _ | lenB
          · exact ⟨[], by simp, by simp⟩
          · by_cases hov : dictMarkMax cfg < st.dictMark + (blockBytes cfg e).length
            · refine ⟨[e], ?_, ?_⟩
              · simp only [List.filter_cons, hd]
                simp only [Bool.not_false, if_pos]
                exact cons_prefix_cons e ⟨_, rfl⟩
              · simp only [if_pos hov]
                simp [headwordOf, hw]
            · simp only [if_neg hov]
              obtain ⟨pfx, hp, he⟩ := ih
                { st with
                  dict := st.dict ++ blockBytes cfg e
                  idxRecords := st.idxRecords ++ [(w0, offB ++ lenB)]
                  altList := st.altList ++ (e.words.drop 1).map fun w => (w, st.wordCount)
                  dictMark := st.dictMark + (blockBytes cfg e).length
                  wordCount := st.wordCount + 1 }
              rw [hw] at he
              refine ⟨e :: pfx, ?_, ?_⟩
              · simp only [List.filter_cons, hd]
                simp only [Bool.not_false, if_pos]
                exact cons_prefix_cons e hp
              · rw [he]
                simp [headwordOf, hw, List.append_assoc]

/-- The running-offset invariant of all four strategies: starting below the
maximum, with every block length encodable, the loop either completes with
the accumulated total (when it stays within the maximum) or aborts with the
overflow error at the first block that crosses it. -/
theorem writeLoop_dictMark (cfg : SdConfig) :
    ∀ (entries : List Entry) (st : RunState),
      st.dictMark ≤ dictMarkMax cfg →
      (∀ l ∈ blockLens cfg entries, l < 2 ^ 32) →
      (∀ e ∈ entries, e.isData = false → e.words ≠ []) →
      (dictMarkMax cfg < st.dictMark + (blockLens cfg entries).sum →
        ∃ m, (writeLoop cfg st entries).2 = some (SdError.overflow (overflowMsg m))) ∧
      (st.dictMark + (blockLens cfg entries).sum ≤ dictMarkMax cfg →
        (writeLoop cfg st entries).2 = none) := by
  intro entries
  induction entries with
  | nil =>
    intro st hst _ _
    constructor
    · intro hlt
      simp [blockLens] at hlt
      omega
    · intro _; simp [writeLoop]
  | cons e rest ih =>
    intro st hst hlens hwords
    by_cases hd : e.isData
    · have hbl : blockLens cfg (e :: rest) = blockLens cfg rest := by
        simp [blockLens, hd]
      have := ih { st with resNames := st.resNames ++ [e.dataName] } hst
        (by rw [hbl] at hlens; exact hlens)
        (fun x hx h2 => hwords x (by simp [hx]) h2)
      rw [writeLoop]
      simp only [hd, if_true]
      rw [hbl]
      exact this
    · have hbl : blockLens cfg (e :: rest) =
          (blockBytes cfg e).length :: blockLens cfg rest := by
        simp [blockLens, hd]
      have hlen0 : (blockBytes cfg e).length < 2 ^ 32 := by
        rw [hbl] at hlens; exact hlens _ (by simp)
      have hrest : ∀ l ∈ blockLens cfg rest, l < 2 ^ 32 := by
        rw [hbl] at hlens; intro l hl; exact hlens l (by simp [hl])
      have ho := dictMarkToBytes_of_le cfg hst
      have hLB : uint32ToBytes (blockBytes cfg e).length =
          some (beBytes 4 (blockBytes cfg e).length) := by
        simp only [uint32ToBytes, if_pos (by omega : (blockBytes cfg e).length < 2 ^ 32)]
      rw [writeLoop]
      simp only [hd, Bool.false_eq_true, if_false]
      rw [hbl]
      simp only [List.sum_cons]
      by_cases hmerge : cfg.merge_syns
      · simp only [hmerge, if_true, ho, hLB]
        by_cases hov : dictMarkMax cfg < st.dictMark + (blockBytes cfg e).length
        · simp only [hov, if_pos]
          constructor
          · intro _; exact ⟨_, rfl⟩
          · intro hle; omega
        · simp only [if_neg hov]
          have := ih
            { st with
              dict := st.dict ++ blockBytes cfg e
              idxRecords := st.idxRecords ++ e.words.map fun w =>
                (w, beBytes (if cfg.large_file then 8 else 4) st.dictMark ++
                  beBytes 4 (blockBytes cfg e).length)
              dictMark := st.dictMark + (blockBytes cfg e).length }
            (by simp; omega) hrest (fun x hx h2 => hwords x (by simp [hx]) h2)
          constructor
          · intro hlt
            apply this.1
            show dictMarkMax cfg <
              st.dictMark + (blockBytes cfg e).length + (blockLens cfg rest).sum
            omega
          · intro hle
            apply this.2
            show st.dictMark + (blockBytes cfg e).length + (blockLens cfg rest).sum ≤
              dictMarkMax cfg
            omega
      · simp only [hmerge, Bool.false_eq_true, if_false]
        rcases hw : e.words with _ | ⟨w0, ws⟩
        · exact absurd hw (hwords e (by simp) (by simpa using hd))
        · simp only [ho, hLB]
          by_cases hov : dictMarkMax cfg < st.dictMark + (blockBytes cfg e).length
          · simp only [hov, if_pos]
            constructor
            · intro _; exact ⟨_, rfl⟩
            · intro hle; omega
          · simp only [if_neg hov]
            have := ih
              { st with
                dict := st.dict ++ blockBytes cfg e
                idxRecords := st.idxRecords ++
                  [(w0, beBytes (if cfg.large_file then 8 else 4) st.dictMark ++
                    beBytes 4 (blockBytes cfg e).length)]
                altList := st.altList ++ ((w0 :: ws).drop 1).map fun w => (w, st.wordCount)
                dictMark := st.dictMark + (blockBytes cfg e).length
                wordCount := st.wordCount + 1 }
              (by simp; omega) hrest (fun x hx h2 => hwords x (by simp [hx]) h2)
            constructor
            · intro hlt
              apply this.1
              show dictMarkMax cfg <
                st.dictMark + (blockBytes cfg e).length + (blockLens cfg rest).sum
              omega
            · intro hle
              apply this.2
              show st.dictMark + (blockBytes cfg e).length + (blockLens cfg rest).sum ≤
                dictMarkMax cfg
              omega

/-! ## Session-level projection lemmas -/

theorem runSession_loop_err (cfg : SdConfig) (glos : Glos) (entries : List Entry)
    {e : SdError} (h : (writeLoop cfg initState entries).2 = some e) :
    (runSession cfg glos entries).err = some e ∧
    (runSession cfg glos entries).ifo = none ∧
    (runSession cfg glos entries).altPairs = (writeLoop cfg initState entries).1.altList ∧
    (runSession cfg glos entries).idxRecords =
      (if cfg.merge_syns then [] else (writeLoop cfg initState entries).1.idxRecords) ∧
    (runSession cfg glos entries).idxFile =
      (if cfg.merge_syns then none
        else some (renderIdx (writeLoop cfg initState entries).1.idxRecords)) := by
  simp only [runSession]
  rw [h]
  exact ⟨rfl, rfl, rfl, rfl, rfl⟩

theorem runSession_idx_split (cfg : SdConfig) (glos : Glos) (entries : List Entry)
    (hm : cfg.merge_syns = false) :
    (runSession cfg glos entries).idxRecords =
      (writeLoop cfg initState entries).1.idxRecords := by
  simp only [runSession]
  cases hp : (writeLoop cfg initState entries).2 with
  | some e => simp [hm]
  | none =>
    simp only [hm, Bool.false_eq_true, if_false]
    split
    · rfl
    · split
      · rfl
      · rfl

theorem runSession_altPairs (cfg : SdConfig) (glos : Glos) (entries : List Entry) :
    (runSession cfg glos entries).altPairs =
      (writeLoop cfg initState entries).1.altList := by
  simp only [runSession]
  cases hp : (writeLoop cfg initState entries).2 with
  | some e => rfl
  | none =>
    by_cases hm : cfg.merge_syns <;> simp only [hm, Bool.false_eq_true, if_false, if_true]
    · split
      · rfl
      · rfl
    · split
      · rfl
      · split
        · rfl
        · rfl

theorem runSession_err_none (cfg : SdConfig) (glos : Glos) (entries : List Entry)
    (h : (runSession cfg glos entries).err = none) :
    (writeLoop cfg initState entries).2 = none := by
  cases hp : (writeLoop cfg initState entries).2 with
  | none => rfl
  | some e =>
    have := (runSession_loop_err cfg glos entries hp).1
    rw [h] at this
    cases this

theorem runSession_idx_merged (cfg : SdConfig) (glos : Glos) (entries : List Entry)
    (hm : cfg.merge_syns = true) :
    (runSession cfg glos entries).idxRecords = [] ∨
    (runSession cfg glos entries).idxRecords =
      sortByKey (writeLoop cfg initState entries).1.idxRecords := by
  simp only [runSession]
  cases hp : (writeLoop cfg initState entries).2 with
  | some e => left; simp [hm]
  | none =>
    simp only [hm, if_true]
    split
    · left; rfl
    · right; rfl

/-! ## Concrete inputs used by witnesses and counterexamples -/

def glosEmpty : Glos := ⟨"", "", "", "", "", "", "", "", none, none⟩

/-- The entry `("apple", "a fruit")` with `lb_word = [b"apple"]`. -/
def appleFruit : Entry := ⟨[[97, 112, 112, 108, 101]], "a fruit".data, "m", false, ""⟩

/-- The entry `("apple", "also a company")`. -/
def appleCompany : Entry := ⟨[[97, 112, 112, 108, 101]], "also a company".data, "m", false, ""⟩

/-- A resource (data) entry. -/
def resEntry : Entry := ⟨[], [], "", true, "icon.png"⟩

/-- A textual entry with headword `b"b"` and alternates `b"d"`, `b"c"`. -/
def multiEntry : Entry := ⟨[[98], [100], [99]], "x".data, "m", false, ""⟩

/-- An entry whose definition is `n` ASCII characters long. -/
def bigEntry (n : Nat) : Entry := ⟨[[97]], List.replicate n 'a', "m", false, ""⟩

theorem bigEntry_words (n : Nat) : (bigEntry n).words = [[97]] := rfl

/-- Split synonyms, uniform plain-text, no HTML/audio rewriting, 32-bit offsets. -/
def cfgSplitM : SdConfig := ⟨false, "m", false, false, false, true⟩

/-- Merged synonyms, uniform plain-text, no HTML/audio rewriting, 32-bit offsets. -/
def cfgMergedM : SdConfig := ⟨false, "m", false, true, false, true⟩

/-- Split synonyms, uniform plain-text, 64-bit offsets (`large_file`). -/
def cfgLargeSplitM : SdConfig := ⟨true, "m", false, false, false, true⟩

theorem blockBytes_plain (cfg : SdConfig) (hs : cfg.sametypesequence = "m")
    (hc : cfg.stardict_client = false) (hg : cfg.audio_goldendict = false) (e : Entry) :
    blockBytes cfg e = utf8Encode e.defi := by
  simp [blockBytes, hs, fixDefiBytes, fixDefi, hc, hg]

/-! ## Claim theorems -/

/-- C1: in every write strategy, after adding each dict block's length to the
running offset, the Writer checks the new offset against the configured
width's maximum (`2^32 - 1` without `large_file`, `2^64 - 1` with it); when
the accumulated total exceeds that maximum the session fails with the
overflow error, whose message ends in `set option large_file=true`, and the
`.ifo` header is never written. -/
theorem stardict_overflow_aborts_before_ifo (cfg : SdConfig) (glos : Glos)
    (entries : List Entry)
    (hlens : ∀ l ∈ blockLens cfg entries, l < 2 ^ 32)
    (hwords : ∀ e ∈ entries, e.isData = false → e.words ≠ [])
    (hsum : dictMarkMax cfg < (blockLens cfg entries).sum) :
    ∃ m, (runSession cfg glos entries).err = some (SdError.overflow (overflowMsg m)) ∧
      (runSession cfg glos entries).ifo = none ∧
      "set option large_file=true".data <:+ (overflowMsg m).data := by
  obtain ⟨m, hm⟩ := (writeLoop_dictMark cfg entries initState (by simp [initState])
    hlens hwords).1 (by simpa [initState] using hsum)
  obtain ⟨h1, h2, _⟩ := runSession_loop_err cfg glos entries hm
  refine ⟨m, h1, h2, ?_⟩
  exact ⟨("StarDict: dictMark = " ++ natToStr m ++ " is too big, ").data,
    (String.data_append _ _).symm⟩

/-- Witness for C1: two plain-text entries of `2^31` definition bytes each,
with `large_file` off, drive the accumulated offset to `2^32 > 2^32 - 1`. -/
theorem stardict_overflow_aborts_before_ifo_witness :
    ((∀ l ∈ blockLens cfgSplitM [bigEntry (2 ^ 31), bigEntry (2 ^ 31)], l < 2 ^ 32) ∧
     (∀ e ∈ [bigEntry (2 ^ 31), bigEntry (2 ^ 31)], e.isData = false → e.words ≠ []) ∧
     dictMarkMax cfgSplitM < (blockLens cfgSplitM [bigEntry (2 ^ 31), bigEntry (2 ^ 31)]).sum) ∧
    (∃ m, (runSession cfgSplitM glosEmpty [bigEntry (2 ^ 31), bigEntry (2 ^ 31)]).err =
        some (SdError.overflow (overflowMsg m)) ∧
      (runSession cfgSplitM glosEmpty [bigEntry (2 ^ 31), bigEntry (2 ^ 31)]).ifo = none ∧
      "set option large_file=true".data <:+ (overflowMsg m).data) := by
  have hb : ∀ n, (blockBytes cfgSplitM (bigEntry n)).length = n := fun n => by
    rw [blockBytes_plain cfgSplitM rfl rfl rfl]
    exact utf8Encode_replicate_a n
  have hbl : blockLens cfgSplitM [bigEntry (2 ^ 31), bigEntry (2 ^ 31)] =
      [2 ^ 31, 2 ^ 31] := by
    unfold blockLens
    rw [show ([bigEntry (2 ^ 31), bigEntry (2 ^ 31)].filter fun e => !e.isData) =
      [bigEntry (2 ^ 31), bigEntry (2 ^ 31)] from rfl]
    simp only [List.map_cons, List.map_nil, hb]
  have h1 : ∀ l ∈ blockLens cfgSplitM [bigEntry (2 ^ 31), bigEntry (2 ^ 31)],
      l < 2 ^ 32 := by
    rw [hbl]; intro l hl; simp at hl; omega
  have h2 : ∀ e ∈ [bigEntry (2 ^ 31), bigEntry (2 ^ 31)],
      e.isData = false → e.words ≠ [] := by
    intro e he _
    rcases List.mem_cons.mp he with h | h
    · rw [h, bigEntry_words]; simp
    · rw [List.mem_singleton.mp h, bigEntry_words]; simp
  have h3 : dictMarkMax cfgSplitM <
      (blockLens cfgSplitM [bigEntry (2 ^ 31), bigEntry (2 ^ 31)]).sum := by
    rw [hbl]; simp [dictMarkMax, cfgSplitM]
  exact ⟨⟨h1, h2, h3⟩,
    stardict_overflow_aborts_before_ifo cfgSplitM glosEmpty _ h1 h2 h3⟩

/-- C2: when the accepted entry stream is sorted by the configured sort key
(modelled, per spec §3/§4.3, as the byte-lexicographic order of the headword
bytes), the records of the produced `.idx` file are sorted ascending by
their word bytes, in every write strategy (split strategies keep the stream
order; merged strategies sort the accumulated records). -/
theorem stardict_idx_sorted (cfg : SdConfig) (glos : Glos) (entries : List Entry)
    (hs : List.Sorted bLe ((entries.filter fun e => !e.isData).map headwordOf)) :
    List.Sorted bLe ((runSession cfg glos entries).idxRecords.map Prod.fst) := by
  by_cases hm : cfg.merge_syns
  · rcases runSession_idx_merged cfg glos entries hm with h | h <;> rw [h]
    · simp
    · have h1 := List.sorted_insertionSort (recLe (α := Bytes))
        ((writeLoop cfg initState entries).1.idxRecords)
      exact List.Pairwise.map Prod.fst (fun a b hab => hab) h1
  · rw [runSession_idx_split cfg glos entries (by simpa using hm)]
    obtain ⟨pfx, hp, he⟩ :=
      writeLoop_split_idx cfg (by simpa using hm) entries initState
    rw [he]
    simp only [initState, List.map_nil, List.nil_append]
    exact hs.sublist (List.Sublist.map headwordOf hp.sublist)

/-- Witness for C2: a sorted two-entry stream (headwords `b"apple"`, `b"b"`). -/
theorem stardict_idx_sorted_witness :
    List.Sorted bLe (([appleFruit, multiEntry].filter fun e => !e.isData).map headwordOf) ∧
    List.Sorted bLe
      ((runSession cfgSplitM glosEmpty [appleFruit, multiEntry]).idxRecords.map Prod.fst) := by
  have hs : List.Sorted bLe
      (([appleFruit, multiEntry].filter fun e => !e.isData).map headwordOf) := by
    simp [appleFruit, multiEntry, headwordOf, List.sorted_cons, bLe, bytesLe]
  exact ⟨hs, stardict_idx_sorted cfgSplitM glosEmpty [appleFruit, multiEntry] hs⟩

/-- C3 counterexample: a stream holding only a resource entry.  The claim
says empty `.idx` and `.syn` files are produced; in the split strategies the
`.syn` file is never created (`writeSynFile` returns before opening it), and
in the merged strategies not even the `.idx` file is created
(`writeIdxFile` returns 0 before opening it). -/
theorem stardict_resource_only_files_cex :
    (runSession cfgSplitM glosEmpty [resEntry]).synFile = none ∧
    (runSession cfgMergedM glosEmpty [resEntry]).idxFile = none ∧
    (runSession cfgMergedM glosEmpty [resEntry]).err = some (SdError.ioNotFound ".idx") := by
  decide

/-- C3 (amended): for a resource-only stream, the split strategies produce an
empty `.idx` file, no `.syn` file, and a populated resource directory, while
the merged strategies create no `.idx` file at all and the header write then
fails on the missing file; a zero-entry stream produces an empty `.dict`
(and, in split strategies, an empty `.idx`), no `.syn` file, and no resource
directory in the split strategies (the merged strategies abort, leaving the
empty directory behind). -/
theorem stardict_resource_only_and_empty (cfg : SdConfig) (glos : Glos)
    (entries : List Entry) (hall : ∀ e ∈ entries, e.isData = true) :
    (runSession cfg glos entries).dict = [] ∧
    (runSession cfg glos entries).synFile = none ∧
    (runSession cfg glos entries).resNames = entries.map (fun e => e.dataName) ∧
    (cfg.merge_syns = false →
      (runSession cfg glos entries).idxFile = some [] ∧
      (runSession cfg glos entries).err = none ∧
      ((runSession cfg glos entries).resDirExists = true ↔ entries ≠ [])) ∧
    (cfg.merge_syns = true →
      (runSession cfg glos entries).idxFile = none ∧
      (runSession cfg glos entries).ifo = none ∧
      (runSession cfg glos entries).err = some (SdError.ioNotFound ".idx") ∧
      (runSession cfg glos entries).resDirExists = true) := by
  have hl := writeLoop_all_data cfg entries initState hall
  simp only [runSession, hl]
  refine ⟨?_, ?_, ?_, ?_, ?_⟩
  · by_cases hm : cfg.merge_syns <;> simp [hm, initState, renderIdx]
  · by_cases hm : cfg.merge_syns <;> simp [hm, initState, renderIdx]
  · by_cases hm : cfg.merge_syns <;> simp [hm, initState, renderIdx]
  · intro hm
    simp only [hm, Bool.false_eq_true, if_false]
    simp [initState, renderIdx, List.map_eq_nil_iff]
  · intro hm
    simp [hm, initState]

/-- Witness for C3 (amended): a single resource entry under the split
strategy, and the zero-entry stream under the split strategy. -/
theorem stardict_resource_only_and_empty_witness :
    ((∀ e ∈ [resEntry], e.isData = true) ∧
      (runSession cfgSplitM glosEmpty [resEntry]).idxFile = some [] ∧
      (runSession cfgSplitM glosEmpty [resEntry]).resNames = ["icon.png"] ∧
      (runSession cfgSplitM glosEmpty [resEntry]).resDirExists = true) ∧
    ((∀ e ∈ ([] : List Entry), e.isData = true) ∧
      (runSession cfgSplitM glosEmpty []).idxFile = some [] ∧
      (runSession cfgSplitM glosEmpty []).resDirExists = false) := by
  have hr := stardict_resource_only_and_empty cfgSplitM glosEmpty [resEntry] (by decide)
  have he := stardict_resource_only_and_empty cfgSplitM glosEmpty [] (by simp)
  refine ⟨⟨by decide, (hr.2.2.2.1 rfl).1, ?_, ?_⟩, ⟨by simp, (he.2.2.2.1 rfl).1, ?_⟩⟩
  · rw [hr.2.2.1]; rfl
  · exact ((hr.2.2.2.1 rfl).2.2).mpr (by simp)
  · have h2 := (he.2.2.2.1 rfl).2.2
    cases hb : (runSession cfgSplitM glosEmpty []).resDirExists
    · rfl
    · exact absurd (h2.mp hb) (by simp)

/-- C10: in split-synonym strategies, on a successful session the synonym
records carry, for each alternate word, the zero-based index of the owning
entry counted among textual entries only — resource entries never shift the
indices — and the sorted `.syn` contents are a permutation of exactly those
records. -/
theorem stardict_syn_indices_textual_only (cfg : SdConfig) (glos : Glos)
    (entries : List Entry) (hm : cfg.merge_syns = false)
    (hok : (runSession cfg glos entries).err = none) :
    (runSession cfg glos entries).altPairs = synPairsFrom 0 entries ∧
    (sortByKey (runSession cfg glos entries).altPairs).Perm (synPairsFrom 0 entries) := by
  have hloop := runSession_err_none cfg glos entries hok
  have h1 := writeLoop_split_altList cfg hm entries initState hloop
  have h2 : (runSession cfg glos entries).altPairs = synPairsFrom 0 entries := by
    rw [runSession_altPairs, h1]
    simp [initState]
  exact ⟨h2, by rw [h2]; exact List.perm_insertionSort _ _⟩

/-- Witness for C10: resource entries interleaved with two textual entries;
the alternates of the second textual entry get index 1. -/
theorem stardict_syn_indices_textual_only_witness :
    (cfgSplitM.merge_syns = false ∧
      (runSession cfgSplitM glosEmpty [resEntry, appleFruit, resEntry, multiEntry]).err = none) ∧
    (runSession cfgSplitM glosEmpty [resEntry, appleFruit, resEntry, multiEntry]).altPairs =
      synPairsFrom 0 [resEntry, appleFruit, resEntry, multiEntry] ∧
    (sortByKey (runSession cfgSplitM glosEmpty
        [resEntry, appleFruit, resEntry, multiEntry]).altPairs).Perm
      (synPairsFrom 0 [resEntry, appleFruit, resEntry, multiEntry]) := by
  exact ⟨⟨rfl, by decide⟩,
    stardict_syn_indices_textual_only cfgSplitM glosEmpty _ rfl (by decide)⟩

/-- C4 counterexample: for the stream
`[("apple", "a fruit"), ("apple", "also a company")]` in merged-synonym,
uniform plain-text mode, the emitted header contains `wordcount=2`
(one index record per entry), not `wordcount=1` as claimed. -/
theorem stardict_apple_wordcount_cex :
    (runSession cfgMergedM glosEmpty [appleFruit, appleCompany]).ifo =
      some [("version", "3.0.0"), ("bookname", ""), ("wordcount", "2"),
        ("idxfilesize", "28"), ("sametypesequence", "m"), ("description", "")] ∧
    ("wordcount", "1") ∉ [(("version" : String), ("3.0.0" : String)), ("bookname", ""),
        ("wordcount", "2"), ("idxfilesize", "28"), ("sametypesequence", "m"),
        ("description", "")] := by
  decide

/-- C4 (amended): the two same-headword entries are independent entries, so
both merged and split modes produce two index records resolving to their
distinct dict-block offsets (0 and 7); the header contains `wordcount=2` in
both modes, and split mode produces no synonym records and no
`synwordcount` field (the two entries share no entry, so nothing is an
alternate). -/
theorem stardict_apple_two_records :
    (runSession cfgMergedM glosEmpty [appleFruit, appleCompany]).idxRecords =
      [([97, 112, 112, 108, 101], [0, 0, 0, 0, 0, 0, 0, 7]),
        ([97, 112, 112, 108, 101], [0, 0, 0, 7, 0, 0, 0, 14])] ∧
    (runSession cfgSplitM glosEmpty [appleFruit, appleCompany]).idxRecords =
      [([97, 112, 112, 108, 101], [0, 0, 0, 0, 0, 0, 0, 7]),
        ([97, 112, 112, 108, 101], [0, 0, 0, 7, 0, 0, 0, 14])] ∧
    (runSession cfgSplitM glosEmpty [appleFruit, appleCompany]).synFile = none ∧
    (runSession cfgSplitM glosEmpty [appleFruit, appleCompany]).altPairs = [] ∧
    (runSession cfgMergedM glosEmpty [appleFruit, appleCompany]).ifo =
      some [("version", "3.0.0"), ("bookname", ""), ("wordcount", "2"),
        ("idxfilesize", "28"), ("sametypesequence", "m"), ("description", "")] ∧
    (runSession cfgSplitM glosEmpty [appleFruit, appleCompany]).ifo =
      some [("version", "3.0.0"), ("bookname", ""), ("wordcount", "2"),
        ("idxfilesize", "28"), ("sametypesequence", "m"), ("description", "")] := by
  decide

/-- Sort-key columns for the concrete `SqEntryList` runs. -/
def c7key : List (Nat → Bytes) := [fun n => [n % 256]]

/-- A freshly created disk-backed list with its sort key installed. -/
def c7l0 : SqEntryList Nat :=
  { rows := [], len := 0, sorted := false, reverse := false,
    sortKeyCols := some c7key, isOpen := true }

/-- `c7l0` after its one successful `sort`. -/
def c7l1 : SqEntryList Nat := { c7l0 with sorted := true }

/-- C7 counterexample: after a successful `sort`, a second `sort` fails as
claimed, but `append` succeeds and inserts the row — `SqEntryList.append`
has no sorted-state check — contradicting the claim that any append after
sort fails with the invalid-state error. -/
theorem sq_append_after_sort_cex :
    (SqEntryList.mkNew Nat).setSortKey c7key = Except.ok c7l0 ∧
    c7l0.sort false = Except.ok c7l1 ∧
    c7l1.sort false = Except.error SqError.invalidState ∧
    c7l1.append 5 = Except.ok
      ({ c7l1 with rows := [([[5]], 5)], len := 1 } : SqEntryList Nat) ∧
    c7l1.append 5 ≠ Except.error SqError.invalidState := by
  have hok : c7l1.append 5 = Except.ok
      ({ c7l1 with rows := [([[5]], 5)], len := 1 } : SqEntryList Nat) := rfl
  refine ⟨rfl, rfl, rfl, hok, fun h => ?_⟩
  rw [hok] at h
  cases h

/-- C7 (amended): on a sorted disk-backed list, a second `sort` always fails
with the invalid-state error, while `append` is not guarded by the sorted
flag: on an open list with a sort key installed it succeeds and inserts the
row. -/
theorem sq_sort_twice_fails_append_unchecked {α : Type} (l : SqEntryList α) (e : α)
    (hs : l.sorted = true) :
    (∀ rev, l.sort rev = Except.error SqError.invalidState) ∧
    (l.isOpen = true → ∀ ks, l.sortKeyCols = some ks →
      l.append e = Except.ok
        { l with rows := l.rows ++ [(ks.map (fun f => f e), e)], len := l.len + 1 }) := by
  constructor
  · intro rev
    simp [SqEntryList.sort, hs]
  · intro ho ks hks
    simp [SqEntryList.append, ho, hks]

/-- Witness for C7 (amended): the concrete sorted list `c7l1`. -/
theorem sq_sort_twice_fails_append_unchecked_witness :
    c7l1.sorted = true ∧
    ((∀ rev, c7l1.sort rev = Except.error SqError.invalidState) ∧
      (c7l1.isOpen = true → ∀ ks, c7l1.sortKeyCols = some ks →
        c7l1.append 5 = Except.ok
          { c7l1 with
            rows := c7l1.rows ++ [(ks.map (fun f => f 5), 5)]
            len := c7l1.len + 1 })) :=
  ⟨rfl, sq_sort_twice_fails_append_unchecked c7l1 5 rfl⟩

/-! ## `.ifo` helper lemmas for C5 and C6 -/

theorem renderIfo_no_cr (ifo : List (String × String))
    (h : ∀ kv ∈ ifo, '\r' ∉ kv.1.data ∧ '\r' ∉ kv.2.data) :
    '\r' ∉ renderIfo ifo := by
  unfold renderIfo
  intro hmem
  rw [List.mem_append] at hmem
  rcases hmem with hm | hm
  · exact (by decide : '\r' ∉ sigLine) hm
  · rw [List.mem_flatMap] at hm
    obtain ⟨kv, hkv, hc⟩ := hm
    have h2 := h kv hkv
    simp only [List.mem_append, List.mem_singleton] at hc
    have hflat : '\r' ∈ kv.1.data ∨ '\r' = '=' ∨ '\r' ∈ kv.2.data ∨ '\r' = '\n' := by
      tauto
    rcases hflat with hc2 | hc2 | hc2 | hc2
    · exact h2.1 hc2
    · exact absurd hc2 (by decide)
    · exact h2.2 hc2
    · exact absurd hc2 (by decide)

theorem booknameOf_no_cr (glos : Glos)
    (hsrc : ∀ s, glos.sourceLang = some s → '\r' ∉ s.data)
    (htgt : ∀ t, glos.targetLang = some t → '\r' ∉ t.data) :
    '\r' ∉ (booknameOf glos).data := by
  obtain ⟨name, desc, copy, pub, auth, em, web, date, src, tgt⟩ := glos
  unfold booknameOf
  rcases src with _ | s
  · exact (newlinesToSpace_no_cr name).1
  · rcases tgt with _ | t
    · exact (newlinesToSpace_no_cr name).1
    · simp only []
      split
      · exact (newlinesToSpace_no_cr name).1
      · intro hc
        simp only [String.data_append, List.mem_append, List.mem_singleton] at hc
        have hflat : '\r' ∈ (newlinesToSpace name).data ∨ '\r' ∈ ([' ', '('] : List Char) ∨
            '\r' ∈ s.data ∨ '\r' = '-' ∨ '\r' ∈ t.data ∨ '\r' ∈ ([')'] : List Char) := by
          tauto
        rcases hflat with hc2 | hc2 | hc2 | hc2 | hc2 | hc2
        · exact (newlinesToSpace_no_cr name).1 hc2
        · exact absurd hc2 (by decide)
        · exact hsrc s rfl hc2
        · exact absurd hc2 (by decide)
        · exact htgt t rfl hc2
        · exact absurd hc2 (by decide)

theorem pair_no_cr {k v : String} (h1 : '\r' ∉ k.data) (h2 : '\r' ∉ v.data) :
    '\r' ∉ ((k, v) : String × String).1.data ∧ '\r' ∉ ((k, v) : String × String).2.data :=
  ⟨h1, h2⟩

theorem writeIfoFile_no_cr (cfg : SdConfig) (glos : Glos) (wc swc : Nat)
    (fmt : String) (size : Nat)
    (hfmt : '\r' ∉ fmt.data)
    (hsrc : ∀ s, glos.sourceLang = some s → '\r' ∉ s.data)
    (htgt : ∀ t, glos.targetLang = some t → '\r' ∉ t.data) :
    ∀ kv ∈ writeIfoFile cfg glos wc swc fmt size,
      '\r' ∉ kv.1.data ∧ '\r' ∉ kv.2.data := by
  unfold writeIfoFile optField
  simp only [List.forall_mem_append]
  refine ⟨⟨⟨⟨⟨⟨⟨⟨?_, ?_⟩, ?_⟩, ?_⟩, ?_⟩, ?_⟩, ?_⟩, ?_⟩, ?_⟩
  · intro kv hkv
    simp only [List.mem_cons, List.not_mem_nil, or_false] at hkv
    rcases hkv with rfl | rfl | rfl | rfl
    · exact pair_no_cr (by decide) (by decide)
    · exact pair_no_cr (by decide) (booknameOf_no_cr glos hsrc htgt)
    · exact pair_no_cr (by decide) (natToStr_no_cr wc)
    · exact pair_no_cr (by decide) (natToStr_no_cr size)
  · split
    · intro kv hkv
      simp only [List.mem_singleton] at hkv
      rw [hkv]
      exact pair_no_cr (by decide) (by decide)
    · intro kv hkv; cases hkv
  · split
    · intro kv hkv
      simp only [List.mem_singleton] at hkv
      rw [hkv]
      exact pair_no_cr (by decide) (hfmt)
    · intro kv hkv; cases hkv
  · split
    · intro kv hkv
      simp only [List.mem_singleton] at hkv
      rw [hkv]
      exact pair_no_cr (by decide) (natToStr_no_cr swc)
    · intro kv hkv; cases hkv
  · split
    · intro kv hkv; cases hkv
    · intro kv hkv
      simp only [List.mem_singleton] at hkv
      rw [hkv]
      exact pair_no_cr (by decide) ((newlinesToSpace_no_cr glos.author).1)
  · split
    · intro kv hkv; cases hkv
    · intro kv hkv
      simp only [List.mem_singleton] at hkv
      rw [hkv]
      exact pair_no_cr (by decide) ((newlinesToSpace_no_cr glos.email).1)
  · split
    · intro kv hkv; cases hkv
    · intro kv hkv
      simp only [List.mem_singleton] at hkv
      rw [hkv]
      exact pair_no_cr (by decide) ((newlinesToSpace_no_cr glos.website).1)
  · split
    · intro kv hkv; cases hkv
    · intro kv hkv
      simp only [List.mem_singleton] at hkv
      rw [hkv]
      exact pair_no_cr (by decide) ((newlinesToSpace_no_cr glos.date).1)
  · intro kv hkv
    simp only [List.mem_singleton] at hkv
    rw [hkv]
    exact pair_no_cr (by decide) ((newlinesToBr_no_cr (composedDesc glos)).1)

/-- C5: the header builder emits `idxoffsetbits=64` iff wide-offset mode
(`large_file`) is active, `sametypesequence=<tag>` iff a uniform tag was
used (i.e. the tag is non-empty), and `synwordcount` iff the synonym count
is positive; the mandatory `bookname`, `wordcount`, `idxfilesize` fields are
always present; the rendered text starts with the fixed signature line, and
(for carriage-return-free language codes and format tag) contains no
carriage return, so its line endings are bare line feeds. -/
theorem stardict_ifo_conditional_fields (cfg : SdConfig) (glos : Glos)
    (wc swc : Nat) (fmt : String) (size : Nat)
    (hfmt : '\r' ∉ fmt.data)
    (hsrc : ∀ s, glos.sourceLang = some s → '\r' ∉ s.data)
    (htgt : ∀ t, glos.targetLang = some t → '\r' ∉ t.data) :
    ((writeIfoFile cfg glos wc swc fmt size).filter fun kv => kv.1 == "idxoffsetbits") =
      (if cfg.large_file then [("idxoffsetbits", "64")] else []) ∧
    ((writeIfoFile cfg glos wc swc fmt size).filter fun kv => kv.1 == "sametypesequence") =
      (if fmt = "" then [] else [("sametypesequence", fmt)]) ∧
    ((writeIfoFile cfg glos wc swc fmt size).filter fun kv => kv.1 == "synwordcount") =
      (if 0 < swc then [("synwordcount", natToStr swc)] else []) ∧
    ((writeIfoFile cfg glos wc swc fmt size).filter fun kv => kv.1 == "bookname") =
      [("bookname", booknameOf glos)] ∧
    ((writeIfoFile cfg glos wc swc fmt size).filter fun kv => kv.1 == "wordcount") =
      [("wordcount", natToStr wc)] ∧
    ((writeIfoFile cfg glos wc swc fmt size).filter fun kv => kv.1 == "idxfilesize") =
      [("idxfilesize", natToStr size)] ∧
    sigLine <+: renderIfo (writeIfoFile cfg glos wc swc fmt size) ∧
    '\r' ∉ renderIfo (writeIfoFile cfg glos wc swc fmt size) := by
  refine ⟨?_, ?_, ?_, ?_, ?_, ?_, List.prefix_append _ _,
    renderIfo_no_cr _ (writeIfoFile_no_cr cfg glos wc swc fmt size hfmt hsrc htgt)⟩
  · unfold writeIfoFile optField
    simp only [List.filter_append, apply_ite
        (List.filter fun kv : String × String => kv.1 == "idxoffsetbits"),
      List.filter_cons, List.filter_nil]
    simp [ite_not, ite_self]
  · unfold writeIfoFile optField
    simp only [List.filter_append, apply_ite
        (List.filter fun kv : String × String => kv.1 == "sametypesequence"),
      List.filter_cons, List.filter_nil]
    simp [ite_not, ite_self]
  · unfold writeIfoFile optField
    simp only [List.filter_append, apply_ite
        (List.filter fun kv : String × String => kv.1 == "synwordcount"),
      List.filter_cons, List.filter_nil]
    simp [ite_not, ite_self]
  · unfold writeIfoFile optField
    simp only [List.filter_append, apply_ite
        (List.filter fun kv : String × String => kv.1 == "bookname"),
      List.filter_cons, List.filter_nil]
    simp [ite_not, ite_self]
  · unfold writeIfoFile optField
    simp only [List.filter_append, apply_ite
        (List.filter fun kv : String × String => kv.1 == "wordcount"),
      List.filter_cons, List.filter_nil]
    simp [ite_not, ite_self]
  · unfold writeIfoFile optField
    simp only [List.filter_append, apply_ite
        (List.filter fun kv : String × String => kv.1 == "idxfilesize"),
      List.filter_cons, List.filter_nil]
    simp [ite_not, ite_self]

/-- Witness for C5: `large_file` on, format tag `h`, three words, two
synonyms, no languages set. -/
theorem stardict_ifo_conditional_fields_witness :
    ('\r' ∉ "h".data ∧
      (∀ s, glosEmpty.sourceLang = some s → '\r' ∉ s.data) ∧
      (∀ t, glosEmpty.targetLang = some t → '\r' ∉ t.data)) ∧
    ((writeIfoFile cfgLargeSplitM glosEmpty 3 2 "h" 10).filter
        fun kv => kv.1 == "idxoffsetbits") =
      (if cfgLargeSplitM.large_file then [("idxoffsetbits", "64")] else []) ∧
    ((writeIfoFile cfgLargeSplitM glosEmpty 3 2 "h" 10).filter
        fun kv => kv.1 == "sametypesequence") =
      (if ("h" : String) = "" then [] else [("sametypesequence", "h")]) ∧
    ((writeIfoFile cfgLargeSplitM glosEmpty 3 2 "h" 10).filter
        fun kv => kv.1 == "synwordcount") =
      (if 0 < 2 then [("synwordcount", natToStr 2)] else []) ∧
    ((writeIfoFile cfgLargeSplitM glosEmpty 3 2 "h" 10).filter
        fun kv => kv.1 == "bookname") = [("bookname", booknameOf glosEmpty)] ∧
    ((writeIfoFile cfgLargeSplitM glosEmpty 3 2 "h" 10).filter
        fun kv => kv.1 == "wordcount") = [("wordcount", natToStr 3)] ∧
    ((writeIfoFile cfgLargeSplitM glosEmpty 3 2 "h" 10).filter
        fun kv => kv.1 == "idxfilesize") = [("idxfilesize", natToStr 10)] ∧
    sigLine <+: renderIfo (writeIfoFile cfgLargeSplitM glosEmpty 3 2 "h" 10) ∧
    '\r' ∉ renderIfo (writeIfoFile cfgLargeSplitM glosEmpty 3 2 "h" 10) := by
  have h1 : '\r' ∉ "h".data := by decide
  have h2 : ∀ s, glosEmpty.sourceLang = some s → '\r' ∉ s.data := by
    intro s hs; cases hs
  have h3 : ∀ t, glosEmpty.targetLang = some t → '\r' ∉ t.data := by
    intro t ht; cases ht
  exact ⟨⟨h1, h2, h3⟩,
    stardict_ifo_conditional_fields cfgLargeSplitM glosEmpty 3 2 "h" 10 h1 h2 h3⟩

/-- C6: the emitted description value is the glossary description with, in
order, the `Publisher: ...` line and the raw copyright prepended (each on
its own line), all embedded newlines rendered as literal `<br>` markers (so
the final value has no raw newline or carriage return), while the other
optional info fields (`author`, `email`, `website`, `date`) have their
newlines collapsed to single spaces by `newlinesToSpace`. -/
theorem stardict_ifo_description_composition (cfg : SdConfig) (glos : Glos)
    (wc swc : Nat) (fmt : String) (size : Nat)
    (hp : glos.publisher ≠ "") (hc : glos.copyright ≠ "") :
    ((writeIfoFile cfg glos wc swc fmt size).filter fun kv => kv.1 == "description") =
      [("description", newlinesToBr
        ("Publisher: " ++ glos.publisher ++ "\n" ++
          (glos.copyright ++ "\n" ++ glos.description)))] ∧
    (∀ v, ("description", v) ∈ writeIfoFile cfg glos wc swc fmt size →
      '\n' ∉ v.data ∧ '\r' ∉ v.data) ∧
    ((writeIfoFile cfg glos wc swc fmt size).filter fun kv => kv.1 == "author") =
      (if glos.author = "" then [] else [("author", newlinesToSpace glos.author)]) ∧
    ((writeIfoFile cfg glos wc swc fmt size).filter fun kv => kv.1 == "email") =
      (if glos.email = "" then [] else [("email", newlinesToSpace glos.email)]) ∧
    ((writeIfoFile cfg glos wc swc fmt size).filter fun kv => kv.1 == "website") =
      (if glos.website = "" then [] else [("website", newlinesToSpace glos.website)]) ∧
    ((writeIfoFile cfg glos wc swc fmt size).filter fun kv => kv.1 == "date") =
      (if glos.date = "" then [] else [("date", newlinesToSpace glos.date)]) := by
  have hcomp : composedDesc glos =
      "Publisher: " ++ glos.publisher ++ "\n" ++
        (glos.copyright ++ "\n" ++ glos.description) := by
    unfold composedDesc
    rw [if_pos hc, if_pos hp]
  have hfil : ((writeIfoFile cfg glos wc swc fmt size).filter
      fun kv => kv.1 == "description") =
      [("description", newlinesToBr (composedDesc glos))] := by
    unfold writeIfoFile optField
    simp only [List.filter_append, apply_ite
        (List.filter fun kv : String × String => kv.1 == "description"),
      List.filter_cons, List.filter_nil]
    simp [ite_not, ite_self]
  refine ⟨by rw [hfil, hcomp], ?_, ?_, ?_, ?_, ?_⟩
  · intro v hv
    have h2 : ("description", v) ∈ (writeIfoFile cfg glos wc swc fmt size).filter
        (fun kv => kv.1 == "description") :=
      List.mem_filter.mpr ⟨hv, by simp⟩
    rw [hfil] at h2
    simp only [List.mem_singleton, Prod.mk.injEq] at h2
    rw [h2.2]
    exact ⟨(newlinesToBr_no_cr (composedDesc glos)).2,
      (newlinesToBr_no_cr (composedDesc glos)).1⟩
  · unfold writeIfoFile optField
    simp only [List.filter_append, apply_ite
        (List.filter fun kv : String × String => kv.1 == "author"),
      List.filter_cons, List.filter_nil]
    simp [ite_not, ite_self, apply_ite
      (List.filter fun kv : String × String => kv.1 == "author")]
  · unfold writeIfoFile optField
    simp only [List.filter_append, apply_ite
        (List.filter fun kv : String × String => kv.1 == "email"),
      List.filter_cons, List.filter_nil]
    simp [ite_not, ite_self, apply_ite
      (List.filter fun kv : String × String => kv.1 == "email")]
  · unfold writeIfoFile optField
    simp only [List.filter_append, apply_ite
        (List.filter fun kv : String × String => kv.1 == "website"),
      List.filter_cons, List.filter_nil]
    simp [ite_not, ite_self, apply_ite
      (List.filter fun kv : String × String => kv.1 == "website")]
  · unfold writeIfoFile optField
    simp only [List.filter_append, apply_ite
        (List.filter fun kv : String × String => kv.1 == "date"),
      List.filter_cons, List.filter_nil]
    simp [ite_not, ite_self, apply_ite
      (List.filter fun kv : String × String => kv.1 == "date")]

/-- Witness for C6: publisher `P`, copyright `C`, description with an
embedded newline. -/
theorem stardict_ifo_description_composition_witness :
    (("P" : String) ≠ "" ∧ ("C" : String) ≠ "") ∧
    ((writeIfoFile cfgSplitM ⟨"n", "d1\nd2", "C", "P", "", "", "", "", none, none⟩
        1 0 "m" 5).filter fun kv => kv.1 == "description") =
      [("description", newlinesToBr ("Publisher: " ++ "P" ++ "\n" ++ ("C" ++ "\n" ++ "d1\nd2")))] := by
  have h := stardict_ifo_description_composition cfgSplitM
    ⟨"n", "d1\nd2", "C", "P", "", "", "", "", none, none⟩ 1 0 "m" 5
    (by decide) (by decide)
  exact ⟨⟨by decide, by decide⟩, h.1⟩

/-! ## C8: sanitizer no-op -/

/-- A helper composing an infix of a suffix into an infix. -/
theorem subThenSuffix_sub {pat t s : List Char} (h1 : pat <:+: t) (h2 : t <:+ s) :
    pat <:+: s := by
  obtain ⟨a, b, hab⟩ := h1
  obtain ⟨u, hu⟩ := h2
  exact ⟨u ++ a, b, by rw [← hu, ← hab]; simp [List.append_assoc]⟩

/-- Client-compatibility and audio rewriting both enabled, format `h`. -/
def cfgClientH : SdConfig := ⟨false, "h", true, false, true, true⟩

/-- C8 counterexample: `"<br/>"` contains no `<p>` tag and no raw
`sound://` link, yet with the StarDict-client flag set and HTML format the
sanitizer normalizes it to `"<br>"`, so sanitization is not a no-op on such
inputs. -/
theorem stardict_fixDefi_not_noop_cex :
    containsSub "<p".data "<br/>".data = false ∧
    containsSub "</p>".data "<br/>".data = false ∧
    containsSub "sound://".data "<br/>".data = false ∧
    fixDefiBytes ⟨false, "h", true, false, false, true⟩ "h" "<br/>".data ≠
      utf8Encode "<br/>".data ∧
    fixDefiBytes ⟨false, "h", true, false, false, true⟩ "h" "<br/>".data =
      utf8Encode "<br>".data := by
  decide

/-- C8 (amended): sanitizing is a no-op — the output bytes equal the UTF-8
encoding of the unmodified input, for every configuration and format tag —
for any definition text with no `<p` and no `</p>` substring, no
`sound://` substring, and in which every occurrence of the `<br[ /]*>`
pattern is already spelled canonically as `<br>`. -/
theorem stardict_fixDefi_noop (s : List Char)
    (h1 : containsSub "<p".data s = false)
    (h2 : containsSub "</p>".data s = false)
    (h3 : brCanonical s = true)
    (h4 : containsSub "sound://".data s = false) :
    ∀ (cfg : SdConfig) (fmt : String), fixDefiBytes cfg fmt s = utf8Encode s := by
  have hp : pSubAll s = s := by
    refine reSub_id pMatcher s.length s le_rfl ?_
    intro t ht rep r2 hm
    exact absurd (prefixThenSuffix_sub (pMatcher_eq_some hm) ht)
      (containsSub_eq_false h1)
  have hcp : closePSubAll s = s := by
    refine reSub_id closePMatcher s.length s le_rfl ?_
    intro t ht rep r2 hm
    exact absurd (prefixThenSuffix_sub (closePMatcher_eq_some hm) ht)
      (containsSub_eq_false h2)
  have hbr : brSubAll s = s := by
    refine reSub_id brMatcher s.length s le_rfl ?_
    intro t ht rep r2 hm
    exact ⟨(brCanonical_spec h3 t ht rep r2 hm), brMatcher_shrinks hm⟩
  have hau : ∀ icon, audioSubAll icon s = s := by
    intro icon
    refine reSub_id (audioMatcher icon) s.length s le_rfl ?_
    intro t ht rep r2 hm
    exact absurd (subThenSuffix_sub (audioMatcher_eq_some hm) ht)
      (containsSub_eq_false h4)
  intro cfg fmt
  simp only [fixDefiBytes, fixDefi]
  rw [hp, hcp, hbr]
  simp only [ite_self]
  rw [hau cfg.audio_icon]
  simp only [ite_self]

/-- Witness for C8 (amended): a text with one canonical `<br>` and none of
the excluded substrings, under both rewriting flags. -/
theorem stardict_fixDefi_noop_witness :
    (containsSub "<p".data "a<br>b".data = false ∧
      containsSub "</p>".data "a<br>b".data = false ∧
      brCanonical "a<br>b".data = true ∧
      containsSub "sound://".data "a<br>b".data = false) ∧
    fixDefiBytes cfgClientH "h" "a<br>b".data = utf8Encode "a<br>b".data := by
  refine ⟨by decide, ?_⟩
  exact stardict_fixDefi_noop "a<br>b".data (by decide) (by decide) (by decide)
    (by decide) cfgClientH "h"

/-! ## C9: the index record length field -/

theorem uint32ToBytes_of_lt {n : Nat} (h : n < 2 ^ 32) :
    uint32ToBytes n = some (beBytes 4 n) := by
  unfold uint32ToBytes
  rw [if_pos h]

theorem runSession_idx_merged_ok (cfg : SdConfig) (glos : Glos) (entries : List Entry)
    (hm : cfg.merge_syns = true)
    (hok : (writeLoop cfg initState entries).2 = none)
    (hne : ¬ (writeLoop cfg initState entries).1.idxRecords = []) :
    (runSession cfg glos entries).idxRecords =
      sortByKey (writeLoop cfg initState entries).1.idxRecords ∧
    (runSession cfg glos entries).err = none := by
  simp only [runSession]
  rw [hok]
  simp only [hm, if_true, if_neg hne]
  exact ⟨trivial, trivial⟩

theorem runSession_split_ok_noalts (cfg : SdConfig) (glos : Glos) (entries : List Entry)
    (hm : cfg.merge_syns = false)
    (hok : (writeLoop cfg initState entries).2 = none)
    (hna : (writeLoop cfg initState entries).1.altList = []) :
    (runSession cfg glos entries).err = none := by
  simp only [runSession]
  rw [hok]
  simp only [hm, Bool.false_eq_true, if_false, hna, if_pos]

/-- C9 (amended): for a one-word textual entry, in every strategy and
offset width, an index record stores the offset in the configured width (8
bytes under `large_file`, otherwise 4) followed by the block length encoded
in exactly 4 bytes; a block of `2^32` bytes or more does not get a wrapped
length — the 4-byte length encoding fails (spec-modelled `FormatOverflow`)
and the session aborts with no index record and no header. -/
theorem stardict_idx_length_field (cfg : SdConfig) (glos : Glos) (e : Entry)
    (w : Bytes) (hw : e.words = [w]) (hd : e.isData = false) :
    ((blockBytes cfg e).length < 2 ^ 32 →
      (runSession cfg glos [e]).err = none ∧
      ∀ rec ∈ (runSession cfg glos [e]).idxRecords,
        rec.2 = beBytes (if cfg.large_file then 8 else 4) 0 ++
          beBytes 4 (blockBytes cfg e).length ∧
        rec.2.length = (if cfg.large_file then 8 else 4) + 4) ∧
    (2 ^ 32 ≤ (blockBytes cfg e).length →
      (runSession cfg glos [e]).err = some SdError.encodeOverflow ∧
      (runSession cfg glos [e]).idxRecords = [] ∧
      (runSession cfg glos [e]).ifo = none) := by
  have ho : dictMarkToBytes cfg 0 = some (beBytes (if cfg.large_file then 8 else 4) 0) :=
    dictMarkToBytes_of_le cfg (Nat.zero_le _)
  constructor
  · intro hlt
    have hLB := uint32ToBytes_of_lt hlt
    have hle : (blockBytes cfg e).length ≤ dictMarkMax cfg := by
      unfold dictMarkMax
      split
      · have h64 : (2 : Nat) ^ 32 ≤ 2 ^ 64 - 1 := by norm_num
        omega
      · omega
    by_cases hm : cfg.merge_syns
    · have hloop : writeLoop cfg initState [e] =
          ({ initState with
              dict := initState.dict ++ blockBytes cfg e
              idxRecords := [(w, beBytes (if cfg.large_file then 8 else 4) 0 ++
                beBytes 4 (blockBytes cfg e).length)]
              dictMark := (blockBytes cfg e).length }, none) := by
        rw [writeLoop]
        simp only [hd, Bool.false_eq_true, if_false, hw]
        simp [hm, initState, ho, hLB, hle, writeLoop]
      have hok : (writeLoop cfg initState [e]).2 = none := by rw [hloop]
      have hrecs : (writeLoop cfg initState [e]).1.idxRecords =
          [(w, beBytes (if cfg.large_file then 8 else 4) 0 ++
            beBytes 4 (blockBytes cfg e).length)] := by rw [hloop]
      have hne : ¬ (writeLoop cfg initState [e]).1.idxRecords = [] := by
        rw [hrecs]; simp
      obtain ⟨hidx, herr⟩ := runSession_idx_merged_ok cfg glos [e] hm hok hne
      refine ⟨herr, ?_⟩
      intro rec hmem
      rw [hidx, hrecs] at hmem
      simp only [sortByKey, List.insertionSort, List.orderedInsert,
        List.mem_singleton] at hmem
      rw [hmem]
      exact ⟨rfl, by simp [beBytes_length]⟩
    · have hmf : cfg.merge_syns = false := by simpa using hm
      have hloop : writeLoop cfg initState [e] =
          ({ initState with
              dict := initState.dict ++ blockBytes cfg e
              idxRecords := [(w, beBytes (if cfg.large_file then 8 else 4) 0 ++
                beBytes 4 (blockBytes cfg e).length)]
              altList := []
              dictMark := (blockBytes cfg e).length
              wordCount := 1 }, none) := by
        rw [writeLoop]
        simp only [hd, Bool.false_eq_true, if_false, hw]
        simp [hmf, initState, ho, hLB, hle, writeLoop]
      have hok : (writeLoop cfg initState [e]).2 = none := by rw [hloop]
      have hna : (writeLoop cfg initState [e]).1.altList = [] := by rw [hloop]
      refine ⟨runSession_split_ok_noalts cfg glos [e] hmf hok hna, ?_⟩
      intro rec hmem
      rw [runSession_idx_split cfg glos [e] hmf, hloop] at hmem
      simp only [List.mem_singleton] at hmem
      rw [hmem]
      exact ⟨rfl, by simp [beBytes_length]⟩
  · intro hge
    have hLB : uint32ToBytes (blockBytes cfg e).length = none := by
      simp [uint32ToBytes]
      omega
    have hloop : (writeLoop cfg initState [e]).2 = some SdError.encodeOverflow ∧
        (writeLoop cfg initState [e]).1.idxRecords = [] := by
      rw [writeLoop]
      simp only [hd, Bool.false_eq_true, if_false, hw]
      by_cases hm : cfg.merge_syns <;> simp [hm, initState, ho, hLB]
    obtain ⟨herr, hifo, _, hidx, _⟩ := runSession_loop_err cfg glos [e] hloop.1
    refine ⟨herr, ?_, hifo⟩
    rw [hidx, hloop.2]
    simp

/-- Witness for C9 (amended): a one-word entry with a 7-byte block under
`large_file`: the record is an 8-byte offset plus a 4-byte length. -/
theorem stardict_idx_length_field_witness :
    ((appleFruit.words = [[97, 112, 112, 108, 101]] ∧ appleFruit.isData = false) ∧
      (blockBytes cfgLargeSplitM appleFruit).length < 2 ^ 32) ∧
    ((runSession cfgLargeSplitM glosEmpty [appleFruit]).err = none ∧
      ∀ rec ∈ (runSession cfgLargeSplitM glosEmpty [appleFruit]).idxRecords,
        rec.2 = beBytes (if cfgLargeSplitM.large_file then 8 else 4) 0 ++
          beBytes 4 (blockBytes cfgLargeSplitM appleFruit).length ∧
        rec.2.length = (if cfgLargeSplitM.large_file then 8 else 4) + 4) := by
  refine ⟨⟨⟨rfl, rfl⟩, by decide⟩, ?_⟩
  exact (stardict_idx_length_field cfgLargeSplitM glosEmpty appleFruit
    [97, 112, 112, 108, 101] rfl rfl).1 (by decide)

/-- C9 counterexample: a single dict block of exactly `2^32` bytes in
`large_file` mode.  The claim predicts a stored length wrapped modulo
`2^32` with no error for the length; instead the 4-byte length encoding
fails (spec-modelled `FormatOverflow`), the session aborts with the codec
error, and no index record is written. -/
theorem stardict_idx_length_wrap_cex :
    (runSession cfgLargeSplitM glosEmpty [bigEntry (2 ^ 32)]).err =
      some SdError.encodeOverflow ∧
    (runSession cfgLargeSplitM glosEmpty [bigEntry (2 ^ 32)]).idxRecords = [] ∧
    (runSession cfgLargeSplitM glosEmpty [bigEntry (2 ^ 32)]).idxFile = some [] ∧
    (runSession cfgLargeSplitM glosEmpty [bigEntry (2 ^ 32)]).ifo = none := by
  have hloop : ∀ n, 2 ^ 32 ≤ n →
      (writeLoop cfgLargeSplitM initState [bigEntry n]).2 =
        some SdError.encodeOverflow ∧
      (writeLoop cfgLargeSplitM initState [bigEntry n]).1.idxRecords = [] := by
    intro n hn
    have hB : (blockBytes cfgLargeSplitM (bigEntry n)).length = n := by
      rw [blockBytes_plain cfgLargeSplitM rfl rfl rfl]
      exact utf8Encode_replicate_a n
    have hLB : uint32ToBytes (blockBytes cfgLargeSplitM (bigEntry n)).length =
        none := by
      rw [hB]
      unfold uint32ToBytes
      rw [if_neg (by omega)]
    have ho : dictMarkToBytes cfgLargeSplitM 0 = some (beBytes 8 0) := by
      unfold dictMarkToBytes uint64ToBytes
      norm_num [cfgLargeSplitM]
    rw [writeLoop]
    simp only [show (bigEntry n).isData = false from rfl, Bool.false_eq_true,
      if_false, bigEntry_words]
    simp [show cfgLargeSplitM.merge_syns = false from rfl, initState, ho, hLB]
  have hl := hloop (2 ^ 32) le_rfl
  obtain ⟨herr, hifo, _, hidx, hfile⟩ :=
    runSession_loop_err cfgLargeSplitM glosEmpty [bigEntry (2 ^ 32)] hl.1
  refine ⟨herr, ?_, ?_, hifo⟩
  · rw [hidx, if_neg (by decide), hl.2]
  · rw [hfile, if_neg (by decide), hl.2]
    rfl

end Stardict
